import Mathlib

set_option maxHeartbeats 1000000

/-!
Shallow embedding of the MeshToVox voxelizer core: the packed sparse octree
(src/octree.rs), the face emitters (src/space_filling.rs, src/io.rs), the DDA
line rasterizer and triangle fan selection (src/voxelizer.rs), and the MagicaVoxel
palette codec (src/io.rs).

Machine-integer conventions: `u32` header/data words are modelled as `Nat`
(every source operation on them stays below 2^32 bitwise); signed `i32` voxel
coordinates are modelled as `Int`, with the arithmetic right shift `c >> s`
modelled as flooring division by `2 ^ s`; `Vec<u32>` is modelled as `List Nat`
and `u32` indices into it as `Nat`.
-/

namespace MeshToVox

/-- glam `IVec3`: signed integer 3-vector. -/
structure IVec3 where
  x : Int
  y : Int
  z : Int
deriving DecidableEq, Repr

def IVec3.add (u v : IVec3) : IVec3 := ⟨u.x + v.x, u.y + v.y, u.z + v.z⟩

def IVec3.smul (v : IVec3) (s : Int) : IVec3 := ⟨v.x * s, v.y * s, v.z * s⟩

/-- glam `IVec3::min_element`. -/
def IVec3.min_element (v : IVec3) : Int := min v.x (min v.y v.z)

/-- glam `IVec3::max_element`. -/
def IVec3.max_element (v : IVec3) : Int := max v.x (max v.y v.z)

/-- Component `d` of an `IVec3` (indexing `v[d]` for `d < 3`). -/
def IVec3.nth (v : IVec3) (d : Nat) : Int :=
  if d = 0 then v.x else if d = 1 then v.y else v.z

/-- Update component `d` of an `IVec3`. -/
def IVec3.set_nth (v : IVec3) (d : Nat) (w : Int) : IVec3 :=
  if d = 0 then ⟨w, v.y, v.z⟩ else if d = 1 then ⟨v.x, w, v.z⟩ else ⟨v.x, v.y, w⟩

/-- Bit `s` of the two's-complement representation of the `i32` value `c`:
models `(c >> s) & 1` (arithmetic shift) via flooring division. -/
def ibit (c : Int) (s : Nat) : Nat := ((c.fdiv (2 ^ s)).emod 2).toNat

/-- `get_octree_idx` (octree.rs): the child octant of coordinates `cords` at
height `s`, `x | (y << 1) | (z << 2)` on the per-axis bits (the bits are
disjoint, so the bitwise or is the sum below). -/
def get_octree_idx (c : IVec3) (s : Nat) : Nat :=
  ibit c.x s + 2 * ibit c.y s + 4 * ibit c.z s

/-- `octree_header::get_exists` (bits 0-7 of a header word). -/
def get_exists (h : Nat) (i : Nat) : Bool := h.testBit i

/-- `octree_header::set_exists`. -/
def set_exists (h : Nat) (i : Nat) : Nat := h ||| 2 ^ i

/-- `octree_header::get_final` (bits 8-15 of a header word). -/
def get_final (h : Nat) (i : Nat) : Bool := h.testBit (i + 8)

/-- `octree_header::set_final`. -/
def set_final (h : Nat) (i : Nat) : Nat := h ||| 2 ^ (i + 8)

/-- `octree_header::set_header_tag`: or `HEADER_TAG = 68` into bits 24-31. -/
def set_header_tag (h : Nat) : Nat := h ||| 68 * 2 ^ 24

/-- `image::Rgba<u8>`: four color bytes (values below 256 on real inputs). -/
structure Rgba where
  r : Nat
  g : Nat
  b : Nat
  a : Nat
deriving DecidableEq, Repr

/-- `octree_header::from_color`: little-endian packing of the bytes into a word. -/
def from_color (c : Rgba) : Nat := c.r + 256 * c.g + 65536 * c.b + 16777216 * c.a

/-- `octree_header::to_color`: little-endian unpacking of a word into bytes. -/
def to_color (w : Nat) : Rgba :=
  ⟨w % 256, w / 256 % 256, w / 65536 % 256, w / 16777216 % 256⟩

/-- `OctreePos`: integer coordinates plus node depth (0 = root). -/
structure OctreePos where
  coords : IVec3
  depth : Nat
deriving DecidableEq, Repr

/-- `Octree`: the backing word array and the maximum node depth. -/
structure Octree where
  data : List Nat
  depth : Nat
deriving DecidableEq, Repr

/-- Array read `data[i]`; reads are gated by EXISTS bits on well-formed trees,
so the default value is never observed there. -/
def dget (l : List Nat) (i : Nat) : Nat := l.getD i 0

/-- `Octree::get_oct_inverted`: octant of `c` at inverted depth `i`. -/
def Octree.get_oct_inverted (t : Octree) (c : IVec3) (i : Nat) : Nat :=
  get_octree_idx c (t.depth - i)

/-- `Octree::create_new_oct`: append a 9-word chunk (tagged header followed by
eight child slots carrying the source's uninitialized sentinel `69420420`);
returns the grown tree and the new chunk's offset. -/
def Octree.create_new_oct (t : Octree) (header : Nat) : Octree × Nat :=
  (⟨t.data ++ set_header_tag header :: List.replicate 8 69420420, t.depth⟩, t.data.length)

/-- `Octree::new`: a single empty root chunk. -/
def Octree.new (depth : Nat) : Octree :=
  (Octree.create_new_oct ⟨[], depth⟩ 0).1

/-- The descent loop of `Octree::insert`, by recursion on the number `k` of
remaining iterations (`d` is the current loop index, so `d + k = node.depth`).
State: current chunk pointer, current octant, current child-slot index, and the
`inserted` flag (true while the walk is still inside pre-existing chunks). -/
def Octree.insert_go (c : IVec3) (val : Rgba) :
    Nat → Octree → Nat → Nat → Nat → Nat → Bool → Octree × Option Nat
  | 0, t, _d, cur_ptr, cur_oct, _cur_node, inserted =>
    let next_node := cur_ptr + 1 + cur_oct
    let header := dget t.data cur_ptr
    if get_exists header cur_oct && inserted then (t, none)
    else
      let header2 := set_final (set_exists header cur_oct) cur_oct
      let data2 := (t.data.set cur_ptr header2).set next_node (from_color val)
      (⟨data2, t.depth⟩, some next_node)
  | k + 1, t, d, cur_ptr, cur_oct, cur_node, inserted =>
    let header := dget t.data cur_ptr
    let next_oct := t.get_oct_inverted c (d + 1)
    if get_exists header cur_oct && inserted then
      if get_final header cur_oct then (t, none)
      else
        let next_ptr := dget t.data cur_node
        Octree.insert_go c val k t (d + 1) next_ptr next_oct (next_ptr + 1 + next_oct) inserted
    else
      let next_header := set_exists 0 next_oct
      let pair := t.create_new_oct next_header
      let next_ptr := pair.2
      let data2 := pair.1.data.set cur_ptr (set_exists (dget pair.1.data cur_ptr) cur_oct)
      let data3 := data2.set cur_node next_ptr
      Octree.insert_go c val k ⟨data3, t.depth⟩ (d + 1) next_ptr next_oct
        (next_ptr + 1 + next_oct) false

/-- `Octree::insert`: returns the updated tree together with `some slot` on
success and `none` when nothing was inserted. -/
def Octree.insert (t : Octree) (node : OctreePos) (val : Rgba) : Octree × Option Nat :=
  if node.depth > t.depth then (t, none)
  else
    let cur_oct := t.get_oct_inverted node.coords 0
    Octree.insert_go node.coords val node.depth t 0 0 cur_oct (0 + 1 + cur_oct) true

/-- `Octree::store`: bounds-guarded insert at maximum depth. -/
def Octree.store (t : Octree) (position : IVec3) (val : Rgba) : Octree :=
  if position.min_element < 1 ∨ (2 : Int) ^ (t.depth + 1) - 1 ≤ position.max_element then t
  else (t.insert ⟨position, t.depth⟩ val).1

/-- The loop of `Octree::contains_point` (`k` = remaining iterations of
`for d in 0..(node.depth + 1)`). -/
def Octree.contains_go (t : Octree) (c : IVec3) : Nat → Nat → Nat → Bool
  | 0, _d, _ptr => false
  | k + 1, d, ptr =>
    let header := dget t.data ptr
    let oct := t.get_oct_inverted c d
    if !get_exists header oct then false
    else if get_final header oct then true
    else Octree.contains_go t c k (d + 1) (dget t.data (ptr + 1 + oct))

/-- `Octree::contains_point`. -/
def Octree.contains_point (t : Octree) (node : OctreePos) : Bool :=
  Octree.contains_go t node.coords (node.depth + 1) 0 0

/-- The loop of `Octree::contains_exact` (`k` = remaining iterations of
`for d in 0..node.depth`, followed by the final FINAL-bit check). -/
def Octree.contains_exact_go (t : Octree) (c : IVec3) : Nat → Nat → Nat → Bool
  | 0, d, ptr =>
    get_final (dget t.data ptr) (t.get_oct_inverted c d)
  | k + 1, d, ptr =>
    let header := dget t.data ptr
    let oct := t.get_oct_inverted c d
    if !get_exists header oct then false
    else if get_final header oct then false
    else Octree.contains_exact_go t c k (d + 1) (dget t.data (ptr + 1 + oct))

/-- `Octree::contains_exact`. -/
def Octree.contains_exact (t : Octree) (node : OctreePos) : Bool :=
  Octree.contains_exact_go t node.coords node.depth 0 0

/-- `OCT_PERMS[i]`: octant unit offset, bit 0 → x, bit 1 → y, bit 2 → z. -/
def oct_perm (i : Nat) : IVec3 :=
  ⟨Int.ofNat (i % 2), Int.ofNat (i / 2 % 2), Int.ofNat (i / 4 % 2)⟩

/-- `Octree::collect_recursive`, with an explicit bound `fuel` on the recursion
depth.  On trees built by `insert` every child of a depth-`depth` chunk is
FINAL, so the recursion of the source is bounded by `depth + 1` levels and the
fuel passed by `collect_nodes` is never exhausted there. -/
def Octree.collect_go (t : Octree) : Nat → Nat → Nat → IVec3 → List (OctreePos × Nat)
  | 0, _offset, _d, _base => []
  | fuel + 1, offset, d, base =>
    (List.range 8).flatMap fun i =>
      let header := dget t.data offset
      if !get_exists header i then []
      else
        let scale : Int := 2 ^ (t.depth - d)
        let coords := base.add ((oct_perm i).smul scale)
        let child := dget t.data (offset + 1 + i)
        if get_final header i then [(⟨coords, d⟩, child)]
        else Octree.collect_go t fuel child (d + 1) coords

/-- `Octree::collect_nodes`. -/
def Octree.collect_nodes (t : Octree) : List (OctreePos × Nat) :=
  Octree.collect_go t (t.depth + 1) 0 0 ⟨0, 0, 0⟩

/-- `MeshNode` (space_filling.rs): one oriented face of an octree leaf cube. -/
structure MeshNode where
  cords : IVec3
  dim : Nat
  positive : Bool
  depth : Nat
deriving DecidableEq, Repr

/-- `MeshNode::to_square`: the base and diagonally opposite corner of the face
square.  `dim` ranges over `{0, 1, 2}` (the source panics otherwise). -/
def MeshNode.to_square (n : MeshNode) (octree_depth : Nat) : IVec3 × IVec3 :=
  let size : Int := 2 ^ (octree_depth - n.depth)
  let base :=
    if n.positive then
      if n.dim = 0 then (⟨n.cords.x + size, n.cords.y, n.cords.z⟩ : IVec3)
      else if n.dim = 1 then ⟨n.cords.x, n.cords.y + size, n.cords.z⟩
      else ⟨n.cords.x, n.cords.y, n.cords.z + size⟩
    else n.cords
  let o1 := if n.dim ≠ 0 then (⟨base.x + size, base.y, base.z⟩ : IVec3) else base
  let o2 := if n.dim ≠ 1 then (⟨o1.x, o1.y + size, o1.z⟩ : IVec3) else o1
  let o3 := if n.dim ≠ 2 then (⟨o2.x, o2.y, o2.z + size⟩ : IVec3) else o2
  (base, o3)

/-- `MeshNode::to_vertices`: the six vertices
`[base, corner1, opposite, base, corner2, opposite]`, with the source's
if/else-if corner construction kept verbatim. -/
def MeshNode.to_vertices (n : MeshNode) (octree_depth : Nat) : List IVec3 :=
  let size : Int := 2 ^ (octree_depth - n.depth)
  let sq := n.to_square octree_depth
  let base := sq.1
  let opposite := sq.2
  let corner1 :=
    if n.dim ≠ 0 then (⟨base.x + size, base.y, base.z⟩ : IVec3)
    else if n.dim ≠ 1 then ⟨base.x, base.y + size, base.z⟩
    else base
  let corner2 :=
    if n.dim ≠ 2 then (⟨base.x, base.y, base.z + size⟩ : IVec3)
    else if n.dim ≠ 1 then ⟨base.x, base.y + size, base.z⟩
    else base
  [base, corner1, opposite, base, corner2, opposite]

/-- The integer vertex list contributed per `MeshNode` by `Octree::fill_space`
(octree.rs): both triangle arrays `a` and `b` are built from
`&triangles[0..3]` of the `to_vertices` result. -/
def fill_space_node_vertices (n : MeshNode) (octree_depth : Nat) : List IVec3 :=
  let triangles := n.to_vertices octree_depth
  triangles.take 3 ++ triangles.take 3

/-- `Octree::empty_to_mesh`: faces of `filled` leaves whose outward neighbor at
maximum depth lies inside the coordinate cube and is marked in `empty`. -/
def Octree.empty_to_mesh (filled : Octree) (empty : Octree) : List (MeshNode × Rgba) :=
  let nodes := filled.collect_nodes
  let max_size : Int := 2 ^ (filled.depth + 1)
  nodes.flatMap fun cv =>
    (List.range 6).filterMap fun i =>
      let color := to_color cv.2
      let dim := i / 2
      let positive := i % 2 = 0
      let adj := cv.1.coords.set_nth dim (cv.1.coords.nth dim + if positive then 1 else -1)
      if max_size ≤ adj.nth dim ∨ adj.nth dim < 0 then none
      else if empty.contains_point ⟨adj, filled.depth⟩ then
        some (⟨cv.1.coords, dim, positive, filled.depth⟩, color)
      else none

/-- The 6-faces-per-leaf `MeshNode` list built by the dense (non-sparse) branch
of `Octree::save_as_gltf` (io.rs). -/
def Octree.dense_mesh_nodes (t : Octree) : List (MeshNode × Rgba) :=
  t.collect_nodes.flatMap fun cv =>
    (List.range 6).map fun i =>
      ((⟨cv.1.coords, i / 2, i % 2 = 0, cv.1.depth⟩ : MeshNode), to_color cv.2)

/-- `magica::encode` (io.rs): 3:3:2 quantization
`(r >> 5) | ((g >> 5) << 3) | ((b >> 6) << 6)` of color bytes. -/
def magica_encode (r g b : Nat) : Nat := r / 32 + 8 * (g / 32) + 64 * (b / 64)

/-- `magica::decode` (io.rs): palette entry of a byte index,
`((i & 7) << 5, ((i >> 3) & 7) << 5, ((i >> 6) & 3) << 6)`. -/
def magica_decode (i : Nat) : Nat × Nat × Nat :=
  (i % 8 * 32, i / 8 % 8 * 32, i / 64 % 4 * 64)

/-! ### Float model for the UV sentinel (io.rs `VertexExtras`)

An `f32` is modelled as `Option ℚ` with `none` playing NaN; IEEE `==` is false
whenever either side is NaN, and agrees with rational equality on exactly
represented finite values (the only finite values these claims touch). -/

/-- glam `Vec2` with NaN-aware components. -/
structure Vec2F where
  x : Option ℚ
  y : Option ℚ
deriving DecidableEq, Repr

/-- IEEE `==` on the float model: any comparison against NaN is false. -/
def fbeq : Option ℚ → Option ℚ → Bool
  | some a, some b => a == b
  | _, _ => false

/-- Componentwise `==` of glam `Vec2` (conjunction of IEEE comparisons). -/
def Vec2F.beq (a b : Vec2F) : Bool := fbeq a.x b.x && fbeq a.y b.y

/-- `Vec2::NAN`. -/
def Vec2F.nanv : Vec2F := ⟨none, none⟩

/-- `VertexExtras` (io.rs), restricted to the fields the claims touch: the
NaN-sentinelled uv and the material index (the normal field is never read by
the voxelizer). -/
structure VertexExtras where
  uv : Vec2F
  material_idx : Nat
deriving DecidableEq, Repr

/-- `VertexExtras::new`: a missing uv is stored as the `Vec2::NAN` sentinel. -/
def VertexExtras.new (uv : Option Vec2F) (material_idx : Nat) : VertexExtras :=
  ⟨uv.getD Vec2F.nanv, material_idx⟩

/-- `VertexExtras::uv` (io.rs): `(self.uv != Vec2::NAN).then_some(self.uv)`. -/
def VertexExtras.uv_opt (e : VertexExtras) : Option Vec2F :=
  if !(Vec2F.beq e.uv Vec2F.nanv) then some e.uv else none

/-- The per-triangle UV fetch of the textured branch of `voxelize`
(voxelizer.rs): `mesh.triangle_extras[tri].map(|extras| extras.uv().unwrap())`.
The `unwrap` panics — a runtime error — exactly when the result is `none`. -/
def textured_uvs (extras : List VertexExtras) : Option (List Vec2F) :=
  extras.mapM VertexExtras.uv_opt

/-! ### Exact model of the DDA line rasterizer (voxelizer.rs `voxelize_line`)

The loop state is a pair of `t_max` values and the integer cell `map_pos`.
`t` values are `Option ℚ` with `none` playing IEEE `+∞` (written `1.0 / 0.0`
by `Vec3::ONE / ray_dir` on a zero direction component); all finite values in
the analysed executions are exactly representable, and every executed `f32`
operation on them is exact, so rational arithmetic is faithful there. -/

/-- ℚ-valued 3-vector (exactly representable `f32` coordinates). -/
structure QVec3 where
  x : ℚ
  y : ℚ
  z : ℚ
deriving DecidableEq, Repr

def QVec3.sub (u v : QVec3) : QVec3 := ⟨u.x - v.x, u.y - v.y, u.z - v.z⟩

def QVec3.smul (v : QVec3) (s : ℚ) : QVec3 := ⟨v.x * s, v.y * s, v.z * s⟩

def QVec3.dot (u v : QVec3) : ℚ := u.x * v.x + u.y * v.y + u.z * v.z

/-- `f32::distance_squared` on exactly represented values. -/
def dist_sq (u v : QVec3) : ℚ := QVec3.dot (u.sub v) (u.sub v)

/-- Extended value: `some q` is a finite float, `none` is `+∞`. -/
def ExtQ : Type := Option ℚ

instance : DecidableEq ExtQ := by unfold ExtQ; infer_instance

/-- `+∞` plus anything the loop adds to it stays `+∞`; finite sums are exact. -/
def extAdd : ExtQ → ExtQ → ExtQ
  | some a, some b => some (a + b)
  | _, _ => none

/-- IEEE `<` restricted to {finite, +∞}: `+∞` is never below anything, every
finite value is below `+∞`. -/
def extLt : ExtQ → ExtQ → Bool
  | some a, some b => a < b
  | some _, none => true
  | none, _ => false

/-- `1.0 / d` componentwise (`Vec3::ONE / ray_dir`): division of 1 by `+0.0`
yields `+∞` (no negative zeros arise in the analysed executions). -/
def one_over (d : ℚ) : ExtQ := if d = 0 then none else some (1 / d)

/-- `f32::abs` on {finite, +∞}. -/
def extAbs : ExtQ → ExtQ
  | some a => some |a|
  | none => none

/-- `f32::signum` for values that are not negative zero and not NaN. -/
def qsignum (q : ℚ) : Int := if q < 0 then -1 else 1

/-- `f32::floor` to an integer cell coordinate. -/
def qfloor (q : ℚ) : Int := ⌊q⌋

/-- `as_ivec3` truncation (`as i32` rounds toward zero). -/
def qtrunc (q : ℚ) : Int := if 0 ≤ q then ⌊q⌋ else ⌈q⌉

/-- Extended-valued 3-vector (`t_max` / `t_delta`). -/
structure ExtVec3 where
  x : ExtQ
  y : ExtQ
  z : ExtQ

def ExtVec3.nth (v : ExtVec3) (d : Nat) : ExtQ :=
  if d = 0 then v.x else if d = 1 then v.y else v.z

def ExtVec3.set_nth (v : ExtVec3) (d : Nat) (w : ExtQ) : ExtVec3 :=
  if d = 0 then ⟨w, v.y, v.z⟩ else if d = 1 then ⟨v.x, w, v.z⟩ else ⟨v.x, v.y, w⟩

/-- glam `Vec3::min_position`: index of the first strictly smallest component. -/
def ExtVec3.min_position (v : ExtVec3) : Nat :=
  let m1 := if extLt v.y v.x then v.y else v.x
  let i1 := if extLt v.y v.x then 1 else 0
  if extLt v.z m1 then 2 else i1

/-- The mutable state of the `voxelize_line` loop. -/
structure DdaState where
  t_max : ExtVec3
  map_pos : IVec3

/-- One advance step of the loop: bump `t_max` and `map_pos` on the axis with
the smallest `t_max`. -/
def dda_advance (t_delta : ExtVec3) (step : IVec3) (s : DdaState) : DdaState :=
  let i := s.t_max.min_position
  ⟨s.t_max.set_nth i (extAdd (s.t_max.nth i) (t_delta.nth i)),
   s.map_pos.set_nth i (s.map_pos.nth i + step.nth i)⟩

/-- The `loop` of `voxelize_line`, fuelled: `some map_pos` when the exit
condition `map_pos == end` is reached within `fuel` iterations, `none`
otherwise.  The per-voxel `store` call does not read or write any loop
variable, so the octree is not threaded through the control state. -/
def dda_loop (t_delta : ExtVec3) (step : IVec3) (endc : IVec3) :
    Nat → DdaState → Option IVec3
  | 0, _ => none
  | fuel + 1, s =>
    if s.map_pos = endc then some s.map_pos
    else dda_loop t_delta step endc fuel (dda_advance t_delta step s)

/-- The loop-setup of `voxelize_line` from `p1`, `p2` and the (exactly)
normalized direction `dir = (p2 - p1).normalize()`: produces
`(t_delta, step, end, initial state)`. -/
def voxelize_line_setup (p1 p2 dir : QVec3) : ExtVec3 × IVec3 × IVec3 × DdaState :=
  let endc : IVec3 := ⟨qtrunc p2.x, qtrunc p2.y, qtrunc p2.z⟩
  let inv_dir : ExtVec3 := ⟨one_over dir.x, one_over dir.y, one_over dir.z⟩
  let map0 : IVec3 := ⟨qfloor p1.x, qfloor p1.y, qfloor p1.z⟩
  let t_delta : ExtVec3 := ⟨extAbs inv_dir.x, extAbs inv_dir.y, extAbs inv_dir.z⟩
  let step : IVec3 := ⟨qsignum dir.x, qsignum dir.y, qsignum dir.z⟩
  let step_clamped : IVec3 := ⟨max step.x 0, max step.y 0, max step.z 0⟩
  let next_pos : QVec3 :=
    ⟨(map0.x + step_clamped.x : Int), (map0.y + step_clamped.y : Int),
     (map0.z + step_clamped.z : Int)⟩
  let mul : ℚ → ExtQ → ExtQ := fun q e =>
    match e with
    | some v => some (q * v)
    | none => none
  let t_max : ExtVec3 :=
    ⟨mul (next_pos.x - p1.x) inv_dir.x, mul (next_pos.y - p1.y) inv_dir.y,
     mul (next_pos.z - p1.z) inv_dir.z⟩
  (t_delta, step, endc, ⟨t_max, map0⟩)

/-! ### The fan-base selection of `voxelize_triangle` (voxelizer.rs) -/

/-- `voxelize_triangle`'s choice of the fan base: the `LINES` array
`[(1,2), (0,2), (0,1)]` is mapped to squared edge lengths and reduced with
Rust `Iterator::max_by`, which keeps the accumulator only when it compares
strictly greater — so among equal maxima the LAST element wins.  Returns the
chosen `(a, b)` index pair. -/
def voxelize_triangle_base (t0 t1 t2 : QVec3) : Nat × Nat :=
  let e1 : Nat × Nat × ℚ := (1, 2, dist_sq t1 t2)
  let e2 : Nat × Nat × ℚ := (0, 2, dist_sq t0 t2)
  let e3 : Nat × Nat × ℚ := (0, 1, dist_sq t0 t1)
  let m1 := if e2.2.2 < e1.2.2 then e1 else e2
  let m2 := if e3.2.2 < m1.2.2 then m1 else e3
  (m2.1, m2.2.1)

/-- The selection the claim describes: the longest edge with ties broken by
FIRST occurrence in the `LINES` ordering. -/
def first_longest_base (t0 t1 t2 : QVec3) : Nat × Nat :=
  let e1 : Nat × Nat × ℚ := (1, 2, dist_sq t1 t2)
  let e2 : Nat × Nat × ℚ := (0, 2, dist_sq t0 t2)
  let e3 : Nat × Nat × ℚ := (0, 1, dist_sq t0 t1)
  let m1 := if e2.2.2 ≤ e1.2.2 then e1 else e2
  let m2 := if e3.2.2 ≤ m1.2.2 then m1 else e3
  (m2.1, m2.2.1)

/-! ### Analysis layer for the octree representation

Octant walks through the backing array, the canonical position encoded by an
insert, and a replay of voxelization-time mutation sequences. -/

/-- A list of child octants, each below 8. -/
def PathOk (p : List Nat) : Prop := ∀ o ∈ p, o < 8

/-- Walk the interior links of the backing array `L` along an octant path,
starting from chunk offset `off`: at each step the current octant must be
EXISTS and not FINAL. -/
def offW (L : List Nat) : List Nat → Nat → Option Nat
  | [], off => some off
  | o :: p, off =>
    if get_exists (dget L off) o && !get_final (dget L off) o then
      offW L p (dget L (off + 1 + o))
    else none

/-- The color word stored at the leaf addressed by interior path `p` and leaf
octant `lo`: defined when the walk succeeds and the leaf octant is EXISTS and
FINAL in the chunk it ends at. -/
def leafW (L : List Nat) (p : List Nat) (lo : Nat) : Option Nat :=
  match offW L p 0 with
  | some off =>
    if get_exists (dget L off) lo && get_final (dget L off) lo then
      some (dget L (off + 1 + lo))
    else none
  | none => none

/-- The first `j` interior octants consulted by a descent to coordinates `c`
in a depth-`td` tree. -/
def pfx (td : Nat) (c : IVec3) (j : Nat) : List Nat :=
  (List.range j).map fun d => get_octree_idx c (td - d)

/-- The interior octants consulted by a descent to node `n` in a depth-`td`
tree (loop indices `0 .. n.depth - 1`). -/
def node_path (td : Nat) (n : OctreePos) : List Nat :=
  pfx td n.coords n.depth

/-- The final octant consulted by a descent to node `n`. -/
def leaf_oct (td : Nat) (n : OctreePos) : Nat := get_octree_idx n.coords (td - n.depth)

/-- Coordinates encoded by the octant list `p` started at level `d` of a
depth-`td` tree (the form in which `collect_nodes` rebuilds positions). -/
def coords_acc (td : Nat) : List Nat → Nat → IVec3
  | [], _d => ⟨0, 0, 0⟩
  | o :: p, d => ((oct_perm o).smul ((2 : Int) ^ (td - d))).add (coords_acc td p (d + 1))

/-- Coordinates of the leaf addressed by interior path `p` and leaf octant
`lo`. -/
def path_coords (td : Nat) (p : List Nat) (lo : Nat) : IVec3 :=
  coords_acc td (p ++ [lo]) 0

/-- The canonical (masked, range-reduced) representative of the position that
an insert of `n` into a depth-`td` tree records: the descent consults only the
coordinate bits `td - n.depth .. td`, and the enumeration rebuilds the
position from exactly those bits. -/
def canon (td : Nat) (n : OctreePos) : OctreePos :=
  ⟨path_coords td (node_path td n) (leaf_oct td n), n.depth⟩

/-- One voxelization-time mutation: a direct `insert` call or a `store` call. -/
inductive Op where
  | ins (node : OctreePos) (val : Rgba)
  | sto (position : IVec3) (val : Rgba)

/-- Apply one operation to a tree, extending the success log with the
canonical leaf position and written color word whenever the (inner) insert
returns `Some`. -/
def apply_op (s : Octree × List (OctreePos × Nat)) (op : Op) :
    Octree × List (OctreePos × Nat) :=
  match op with
  | Op.ins n v =>
    let r := s.1.insert n v
    (r.1, if r.2.isSome then s.2 ++ [(canon s.1.depth n, from_color v)] else s.2)
  | Op.sto p v =>
    if p.min_element < 1 ∨ (2 : Int) ^ (s.1.depth + 1) - 1 ≤ p.max_element then s
    else
      let n : OctreePos := ⟨p, s.1.depth⟩
      let r := s.1.insert n v
      (r.1, if r.2.isSome then s.2 ++ [(canon s.1.depth n, from_color v)] else s.2)

/-- Replay a mutation sequence from a fresh tree, collecting the success log. -/
def replay (depth : Nat) (ops : List Op) : Octree × List (OctreePos × Nat) :=
  ops.foldl apply_op (Octree.new depth, [])

/-- Structural well-formedness of the backing array, maintained by `insert`:
walk-reachable chunks are 9-aligned in-bounds blocks at pairwise distinct
offsets, walks never exceed the maximum depth, FINAL bits imply EXISTS bits,
and the array length is a multiple of 9. -/
structure WF (t : Octree) : Prop where
  len9 : 9 ∣ t.data.length
  bounds : ∀ p off, PathOk p → offW t.data p 0 = some off →
    off % 9 = 0 ∧ off + 9 ≤ t.data.length
  depth_bound : ∀ p off, PathOk p → offW t.data p 0 = some off → p.length ≤ t.depth
  inj : ∀ p q offp offq, PathOk p → PathOk q → offW t.data p 0 = some offp →
    offW t.data q 0 = some offq → p ≠ q → offp ≠ offq
  fin_sub : ∀ p off, PathOk p → offW t.data p 0 = some off → ∀ o, o < 8 →
    get_final (dget t.data off) o = true → get_exists (dget t.data off) o = true

/-- Cell `m` of the chunk chain appended by the allocation phase of `insert`
when it starts allocating `k` chunks at loop index `d` with the array at
length `len`: chunk `j` of the chain serves level `d + 1 + j` of the descent
to coordinates `c`; its header presets EXISTS for the octant consumed there
(plus, for the last chunk, the final EXISTS/FINAL marking of the leaf), the
consumed slot points at the next chunk (or carries the color word `w` in the
last chunk), and all other slots keep the uninitialized sentinel. -/
def chain_cell (td : Nat) (c : IVec3) (w : Nat) (d k len : Nat) (m : Nat) : Nat :=
  let j := m / 9
  let r := m % 9
  let oj := get_octree_idx c (td - (d + 1 + j))
  if r = 0 then
    if j + 1 = k then set_final (set_exists (set_header_tag (set_exists 0 oj)) oj) oj
    else set_header_tag (set_exists 0 oj)
  else
    if r = oj + 1 then (if j + 1 = k then w else len + 9 * (j + 1))
    else 69420420

/-- The two arrays agree on all nine cells of the chunk at offset `off`. -/
def agree9 (L Lp : List Nat) (off : Nat) : Prop :=
  ∀ m, m < 9 → dget Lp (off + m) = dget L (off + m)

/-- The octants consulted by a descent to `c` at levels `r .. r + m - 1`. -/
def seg (td : Nat) (c : IVec3) (r m : Nat) : List Nat :=
  (List.range m).map fun u => get_octree_idx c (td - (r + u))

/-- Specification of a successful insert: the resulting tree is well formed at
the same depth, the addressed leaf was previously absent, and the leaf map
gains exactly that leaf with the written color word. -/
def InsertAdds (t tp : Octree) (P : List Nat) (b w : Nat) : Prop :=
  WF tp ∧ tp.depth = t.depth ∧ leafW t.data P b = none ∧
  ∀ q lo, PathOk q → lo < 8 →
    leafW tp.data q lo = if q = P ∧ lo = b then some w else leafW t.data q lo

/-- `Octree::create_empty_oct`: the empty-tree allocator of the space-filling
engine: a full 9-word chunk below the maximum depth, a bare 1-word tagged
header at the maximum depth. -/
def Octree.create_empty_oct (t : Octree) (depth : Nat) : Octree × Nat :=
  if t.depth = depth then (⟨t.data ++ [set_header_tag 0], t.depth⟩, t.data.length)
  else t.create_new_oct 0

/-- The loop of `Octree::insert_max_start` (octree.rs): walk `start`'s octant
path simultaneously in the filled tree (`fp`) and the empty tree (`ep`),
growing the empty tree; when the filled octant is missing, mark it
EXISTS+FINAL in the empty tree and return the depth.  `none` models the
`panic!()` fallthrough after the loop.  The source's FINAL-ancestor check is
commented out, which this model reproduces faithfully. -/
def insert_max_start_go (filled : Octree) (start : IVec3) :
    Nat → Octree → Nat → Nat → Nat → Octree × Option Nat
  | 0, E, _d, _fp, _ep => (E, none)
  | k + 1, E, d, fp, ep =>
    let fh := dget filled.data fp
    let oct := get_octree_idx start (filled.depth - d)
    if !get_exists fh oct then
      (⟨E.data.set ep (set_exists (set_final (dget E.data ep) oct) oct), E.depth⟩, some d)
    else
      let E1 :=
        if !get_exists (dget E.data ep) oct then
          let E2 : Octree := ⟨E.data.set ep (set_exists (dget E.data ep) oct), E.depth⟩
          let pair := E2.create_empty_oct d
          (⟨pair.1.data.set (ep + 1 + oct) pair.2, pair.1.depth⟩ : Octree)
        else E
      insert_max_start_go filled start k E1 (d + 1) (dget filled.data (fp + 1 + oct))
        (dget E1.data (ep + 1 + oct))

/-- `Octree::insert_max_start` (the `for d in 0..=self.depth` loop). -/
def Octree.insert_max_start (filled : Octree) (E : Octree) (start : IVec3) :
    Octree × Option Nat :=
  insert_max_start_go filled start (filled.depth + 1) E 0 0 0

/-! ## Theorems -/

theorem ibit_lt_two (c : Int) (s : Nat) : ibit c s < 2 := by
  unfold ibit
  have h0 : 0 ≤ (c.fdiv (2 ^ s)).emod 2 := Int.emod_nonneg _ (by norm_num)
  have h1 : (c.fdiv (2 ^ s)).emod 2 < 2 := Int.emod_lt_of_pos _ (by norm_num)
  omega

theorem get_octree_idx_lt_eight (c : IVec3) (s : Nat) : get_octree_idx c s < 8 := by
  unfold get_octree_idx
  have h1 := ibit_lt_two c.x s
  have h2 := ibit_lt_two c.y s
  have h3 := ibit_lt_two c.z s
  omega

theorem ge_se_self (h i : Nat) : get_exists (set_exists h i) i = true := by
  simp [get_exists, set_exists, Nat.testBit_or, Nat.testBit_two_pow_self]

theorem ge_se_ne (h i j : Nat) (hne : i ≠ j) :
    get_exists (set_exists h j) i = get_exists h i := by
  simp [get_exists, set_exists, Nat.testBit_or, Nat.testBit_two_pow_of_ne (Ne.symm hne)]

theorem ge_sf (h i j : Nat) (hi : i < 8) : get_exists (set_final h j) i = get_exists h i := by
  have hne : i ≠ j + 8 := by omega
  simp [get_exists, set_final, Nat.testBit_or, Nat.testBit_two_pow_of_ne (Ne.symm hne)]

theorem gf_se (h i j : Nat) (hj : j < 8) : get_final (set_exists h j) i = get_final h i := by
  have hne : i + 8 ≠ j := by omega
  simp [get_final, set_exists, Nat.testBit_or, Nat.testBit_two_pow_of_ne (Ne.symm hne)]

theorem gf_sf_self (h i : Nat) : get_final (set_final h i) i = true := by
  simp [get_final, set_final, Nat.testBit_or, Nat.testBit_two_pow_self]

theorem gf_sf_ne (h i j : Nat) (hne : i ≠ j) :
    get_final (set_final h j) i = get_final h i := by
  have hne8 : i + 8 ≠ j + 8 := by omega
  simp [get_final, set_final, Nat.testBit_or, Nat.testBit_two_pow_of_ne (Ne.symm hne8)]

theorem tag_bits_lt16 : ∀ j, j < 16 → (1140850688 : Nat).testBit j = false := by
  decide

theorem tag_val : (68 * 2 ^ 24 : Nat) = 1140850688 := by norm_num

theorem ge_tag (h i : Nat) (hi : i < 8) :
    get_exists (set_header_tag h) i = get_exists h i := by
  simp [get_exists, set_header_tag, Nat.testBit_or, tag_val, tag_bits_lt16 i (by omega)]

theorem gf_tag (h i : Nat) (hi : i < 8) :
    get_final (set_header_tag h) i = get_final h i := by
  simp [get_final, set_header_tag, Nat.testBit_or, tag_val, tag_bits_lt16 (i + 8) (by omega)]

theorem ge_zero (i : Nat) : get_exists 0 i = false := by
  simp [get_exists]

theorem gf_zero (i : Nat) : get_final 0 i = false := by
  simp [get_final]

theorem se_eq_self (h i : Nat) (hset : get_exists h i = true) : set_exists h i = h := by
  apply Nat.eq_of_testBit_eq
  intro j
  by_cases hji : j = i
  · subst hji
    simp [set_exists, Nat.testBit_or, Nat.testBit_two_pow_self]
    exact hset
  · simp [set_exists, Nat.testBit_or, Nat.testBit_two_pow_of_ne (Ne.symm hji)]

theorem dget_append_lt (L M : List Nat) (i : Nat) (hi : i < L.length) :
    dget (L ++ M) i = dget L i := by
  simp [dget, List.getD, List.getElem?_append_left hi]

theorem dget_append_right (L M : List Nat) (i : Nat) (hi : L.length ≤ i) :
    dget (L ++ M) i = dget M (i - L.length) := by
  simp [dget, List.getD, List.getElem?_append_right hi]

theorem dget_ge_length (L : List Nat) (i : Nat) (hi : L.length ≤ i) : dget L i = 0 := by
  simp [dget, List.getD, List.getElem?_eq_none hi]

theorem dget_set_self (L : List Nat) (i v : Nat) (hi : i < L.length) :
    dget (L.set i v) i = v := by
  simp [dget, List.getD, List.getElem?_set_self', hi]

theorem dget_set_ne (L : List Nat) (i j v : Nat) (hne : i ≠ j) :
    dget (L.set i v) j = dget L j := by
  simp [dget, List.getD, List.getElem?_set_ne hne]

theorem offW_nil (L : List Nat) (off : Nat) : offW L [] off = some off := rfl

theorem offW_cons (L : List Nat) (o : Nat) (p : List Nat) (off : Nat) :
    offW L (o :: p) off =
      if get_exists (dget L off) o && !get_final (dget L off) o then
        offW L p (dget L (off + 1 + o))
      else none := rfl

theorem offW_append (L : List Nat) :
    ∀ p q off, offW L (p ++ q) off = (offW L p off).bind (offW L q) := by
  intro p
  induction p with
  | nil => intro q off; rfl
  | cons o p ih =>
    intro q off
    simp only [List.cons_append, offW_cons]
    by_cases hc : (get_exists (dget L off) o && !get_final (dget L off) o) = true
    · rw [if_pos hc, if_pos hc, ih]
    · rw [if_neg hc, if_neg hc]; rfl

/-- Frame rule for walks: if the two arrays agree on every chunk visited by
the walk of `q` from `off` in `L`, the walk in `Lp` matches. -/
theorem offW_frame (L Lp : List Nat) :
    ∀ q off, PathOk q →
      (∀ jr offr, jr < q.length → offW L (q.take jr) off = some offr → agree9 L Lp offr) →
      offW Lp q off = offW L q off := by
  intro q
  induction q with
  | nil => intro off _ _; rfl
  | cons o p ih =>
    intro off hok hag
    have ho : o < 8 := hok o (List.mem_cons_self o p)
    have hag0 : agree9 L Lp off := hag 0 off (by simp) rfl
    have hhdr : dget Lp off = dget L off := by
      have := hag0 0 (by omega)
      simpa using this
    have hslot : dget Lp (off + 1 + o) = dget L (off + 1 + o) := by
      have := hag0 (1 + o) (by omega)
      rwa [← Nat.add_assoc] at this
    rw [offW_cons, offW_cons, hhdr]
    by_cases hc : (get_exists (dget L off) o && !get_final (dget L off) o) = true
    · rw [if_pos hc, if_pos hc, hslot]
      apply ih
      · intro x hx
        exact hok x (List.mem_cons_of_mem _ hx)
      · intro jr offr hjr hoffr
        refine hag (jr + 1) offr (by simpa using hjr) ?_
        rw [List.take_succ_cons, offW_cons, if_pos hc]
        exact hoffr
    · rw [if_neg hc, if_neg hc]

theorem pfx_zero (td : Nat) (c : IVec3) : pfx td c 0 = [] := rfl

theorem pfx_succ (td : Nat) (c : IVec3) (j : Nat) :
    pfx td c (j + 1) = pfx td c j ++ [get_octree_idx c (td - j)] := by
  simp [pfx, List.range_succ]

theorem pfx_length (td : Nat) (c : IVec3) (j : Nat) : (pfx td c j).length = j := by
  simp [pfx]

theorem PathOk_pfx (td : Nat) (c : IVec3) (j : Nat) : PathOk (pfx td c j) := by
  intro o ho
  simp only [pfx, List.mem_map, List.mem_range] at ho
  obtain ⟨d, _, rfl⟩ := ho
  exact get_octree_idx_lt_eight c (td - d)

theorem pfx_take (td : Nat) (c : IVec3) (j i : Nat) (hij : i ≤ j) :
    (pfx td c j).take i = pfx td c i := by
  simp [pfx, ← List.map_take, List.take_range, Nat.min_eq_left hij]

set_option maxRecDepth 40000 in
/-- C7: the 3:3:2 MagicaVoxel palette encode/decode pair is an exact
round-trip on all 256 palette indices: `magica_encode (magica_decode i) = i`
for every byte `i`. -/
theorem C7_magica_roundtrip : ∀ i : Fin 256,
    magica_encode (magica_decode i.val).1 (magica_decode i.val).2.1
      (magica_decode i.val).2.2 = i.val := by
  decide

/-- C3 (evaluation of the code at the failing input): for the face
`MeshNode {cords := (1,1,1), dim := 0, positive := false, depth := 1}` of a
depth-1 octree, `to_vertices` produces the two distinct triangles
`[base, corner1, opposite]`, `[base, corner2, opposite]` with
`corner1 = (1,2,1)` and `corner2 = (1,1,2)`, but `fill_space` assembles both
of its triangles from `triangles[0..3]`, so the vertex list it contributes
repeats the first triangle and never contains `corner2`. -/
theorem C3_fill_space_duplicate_triangle :
    MeshNode.to_vertices ⟨⟨1, 1, 1⟩, 0, false, 1⟩ 1 =
      [⟨1, 1, 1⟩, ⟨1, 2, 1⟩, ⟨1, 2, 2⟩, ⟨1, 1, 1⟩, ⟨1, 1, 2⟩, ⟨1, 2, 2⟩] ∧
    fill_space_node_vertices ⟨⟨1, 1, 1⟩, 0, false, 1⟩ 1 =
      [⟨1, 1, 1⟩, ⟨1, 2, 1⟩, ⟨1, 2, 2⟩, ⟨1, 1, 1⟩, ⟨1, 2, 1⟩, ⟨1, 2, 2⟩] ∧
    ¬ (⟨1, 1, 2⟩ : IVec3) ∈ fill_space_node_vertices ⟨⟨1, 1, 1⟩, 0, false, 1⟩ 1 ∧
    fill_space_node_vertices ⟨⟨1, 1, 1⟩, 0, false, 1⟩ 1 ≠
      MeshNode.to_vertices ⟨⟨1, 1, 1⟩, 0, false, 1⟩ 1 := by
  refine ⟨by decide, by decide, by decide, by decide⟩

/-- C6 (evaluation of the code at the failing input): a vertex with a missing
uv stores the `Vec2::NAN` sentinel, but since NaN is IEEE-unequal to itself,
`VertexExtras::uv` returns `Some(NAN)` instead of `None`; the `unwrap` in the
textured branch of `voxelize` therefore succeeds, and voxelizing a textured
triangle whose three vertices all lack uvs proceeds silently instead of
failing with a runtime error. -/
theorem C6_missing_uv_not_an_error (m0 m1 m2 : Nat) :
    (VertexExtras.new none m0).uv_opt = some Vec2F.nanv ∧
    textured_uvs
        [VertexExtras.new none m0, VertexExtras.new none m1, VertexExtras.new none m2] =
      some [Vec2F.nanv, Vec2F.nanv, Vec2F.nanv] := by
  exact ⟨rfl, rfl⟩

/-- C8 (counterexample): for the triangle `t0 = (0,0,0)`, `t1 = (4,0,0)`,
`t2 = (2,5,0)` the edges `(1,2)` and `(0,2)` tie for the longest squared
length 29, yet the code (Rust `max_by` keeps the last maximal element) picks
`(0, 2)` while the claimed first-occurrence tie-break picks `(1, 2)`. -/
theorem C8_counterexample :
    dist_sq ⟨4, 0, 0⟩ ⟨2, 5, 0⟩ = dist_sq ⟨0, 0, 0⟩ ⟨2, 5, 0⟩ ∧
    dist_sq ⟨0, 0, 0⟩ ⟨4, 0, 0⟩ < dist_sq ⟨4, 0, 0⟩ ⟨2, 5, 0⟩ ∧
    voxelize_triangle_base ⟨0, 0, 0⟩ ⟨4, 0, 0⟩ ⟨2, 5, 0⟩ = (0, 2) ∧
    first_longest_base ⟨0, 0, 0⟩ ⟨4, 0, 0⟩ ⟨2, 5, 0⟩ = (1, 2) ∧
    voxelize_triangle_base ⟨0, 0, 0⟩ ⟨4, 0, 0⟩ ⟨2, 5, 0⟩ ≠
      first_longest_base ⟨0, 0, 0⟩ ⟨4, 0, 0⟩ ⟨2, 5, 0⟩ := by
  refine ⟨?_, ?_, ?_, ?_, ?_⟩ <;>
    norm_num [voxelize_triangle_base, first_longest_base, dist_sq, QVec3.sub, QVec3.dot]

/-- C2: every face emitted by the space-filling engine's exterior extraction
(`empty_to_mesh`, for any exterior octree `E`) is one of the 6 faces per
filled leaf emitted by the dense emitter (same leaf coordinates, dimension and
orientation), and the face's outward-normal neighbor at maximum depth is
outside the legal coordinate cube or satisfies `contains_point` in `E` (the
code in fact guarantees the stronger right disjunct). -/
theorem C2_exterior_faces (filled empty : Octree) (mn : MeshNode) (col : Rgba)
    (h : (mn, col) ∈ filled.empty_to_mesh empty) :
    (∃ pr ∈ filled.dense_mesh_nodes,
        pr.1.cords = mn.cords ∧ pr.1.dim = mn.dim ∧ pr.1.positive = mn.positive) ∧
    ((2 : Int) ^ (filled.depth + 1) ≤
        (mn.cords.set_nth mn.dim
          (mn.cords.nth mn.dim + if mn.positive then 1 else -1)).nth mn.dim ∨
      (mn.cords.set_nth mn.dim
          (mn.cords.nth mn.dim + if mn.positive then 1 else -1)).nth mn.dim < 0 ∨
      empty.contains_point
        ⟨mn.cords.set_nth mn.dim (mn.cords.nth mn.dim + if mn.positive then 1 else -1),
          filled.depth⟩ = true) := by
  simp only [Octree.empty_to_mesh, List.mem_flatMap, List.mem_filterMap, List.mem_range] at h
  obtain ⟨cv, hcv, i, hi6, hf⟩ := h
  by_cases hr : (2 : Int) ^ (filled.depth + 1) ≤
      (cv.1.coords.set_nth (i / 2)
        (cv.1.coords.nth (i / 2) + if i % 2 = 0 then 1 else -1)).nth (i / 2) ∨
      (cv.1.coords.set_nth (i / 2)
        (cv.1.coords.nth (i / 2) + if i % 2 = 0 then 1 else -1)).nth (i / 2) < 0
  · rw [if_pos hr] at hf
    exact absurd hf (by simp)
  · rw [if_neg hr] at hf
    by_cases hcp : empty.contains_point
        ⟨cv.1.coords.set_nth (i / 2) (cv.1.coords.nth (i / 2) + if i % 2 = 0 then 1 else -1),
          filled.depth⟩
    · rw [if_pos hcp] at hf
      have hmn : mn = ⟨cv.1.coords, i / 2, decide (i % 2 = 0), filled.depth⟩ ∧
          col = to_color cv.2 := by
        have := Option.some.inj hf
        exact ⟨(Prod.mk.injEq _ _ _ _).mp this |>.1.symm,
               ((Prod.mk.injEq _ _ _ _).mp this).2.symm⟩
      obtain ⟨hmn1, hcol⟩ := hmn
      subst hmn1
      constructor
      · refine ⟨(⟨cv.1.coords, i / 2, decide (i % 2 = 0), cv.1.depth⟩, to_color cv.2), ?_,
          rfl, rfl, rfl⟩
        simp only [Octree.dense_mesh_nodes, List.mem_flatMap, List.mem_map, List.mem_range]
        exact ⟨cv, hcv, i, hi6, rfl⟩
      · right; right
        simpa using hcp
    · rw [if_neg hcp] at hf
      exact absurd hf (by simp)

theorem C2_exterior_faces_witness :
    ((⟨⟨1, 1, 1⟩, 0, true, 1⟩ : MeshNode), (⟨1, 2, 3, 4⟩ : Rgba)) ∈
      Octree.empty_to_mesh ((Octree.new 1).insert ⟨⟨1, 1, 1⟩, 1⟩ ⟨1, 2, 3, 4⟩).1
        ((Octree.new 1).insert ⟨⟨2, 1, 1⟩, 1⟩ ⟨9, 9, 9, 9⟩).1 ∧
    ((∃ pr ∈ Octree.dense_mesh_nodes ((Octree.new 1).insert ⟨⟨1, 1, 1⟩, 1⟩ ⟨1, 2, 3, 4⟩).1,
        pr.1.cords = (⟨1, 1, 1⟩ : IVec3) ∧ pr.1.dim = 0 ∧ pr.1.positive = true) ∧
     ((2 : Int) ^ (((Octree.new 1).insert ⟨⟨1, 1, 1⟩, 1⟩ ⟨1, 2, 3, 4⟩).1.depth + 1) ≤
        (IVec3.set_nth ⟨1, 1, 1⟩ 0 (IVec3.nth ⟨1, 1, 1⟩ 0 + 1)).nth 0 ∨
      (IVec3.set_nth ⟨1, 1, 1⟩ 0 (IVec3.nth ⟨1, 1, 1⟩ 0 + 1)).nth 0 < 0 ∨
      Octree.contains_point ((Octree.new 1).insert ⟨⟨2, 1, 1⟩, 1⟩ ⟨9, 9, 9, 9⟩).1
        ⟨IVec3.set_nth ⟨1, 1, 1⟩ 0 (IVec3.nth ⟨1, 1, 1⟩ 0 + 1),
          ((Octree.new 1).insert ⟨⟨1, 1, 1⟩, 1⟩ ⟨1, 2, 3, 4⟩).1.depth⟩ = true)) := by
  refine ⟨by decide, ?_⟩
  have h := C2_exterior_faces ((Octree.new 1).insert ⟨⟨1, 1, 1⟩, 1⟩ ⟨1, 2, 3, 4⟩).1
    ((Octree.new 1).insert ⟨⟨2, 1, 1⟩, 1⟩ ⟨9, 9, 9, 9⟩).1
    ⟨⟨1, 1, 1⟩, 0, true, 1⟩ ⟨1, 2, 3, 4⟩ (by decide)
  simpa [MeshNode.positive] using h

/-- The fan-base selection as a plain nested conditional. -/
theorem voxelize_triangle_base_eq (t0 t1 t2 : QVec3) :
    voxelize_triangle_base t0 t1 t2 =
      if dist_sq t0 t1 <
          (if dist_sq t0 t2 < dist_sq t1 t2 then dist_sq t1 t2 else dist_sq t0 t2) then
        (if dist_sq t0 t2 < dist_sq t1 t2 then (1, 2) else (0, 2))
      else (0, 1) := by
  simp only [voxelize_triangle_base]
  split_ifs <;> rfl

/-- C8 amended: the fan base `(a, b)` chosen by `voxelize_triangle` is a
longest edge, with ties among longest edges broken by LAST occurrence in the
`LINES` ordering `[(1,2), (0,2), (0,1)]` (every edge after the chosen one is
strictly shorter), and `c = 3 - a - b` is the remaining vertex. -/
theorem C8_longest_edge_last_tiebreak (t0 t1 t2 : QVec3) :
    ∃ i, i < 3 ∧
      voxelize_triangle_base t0 t1 t2 = ([(1, 2), (0, 2), (0, 1)].getD i (0, 0) : Nat × Nat) ∧
      [dist_sq t1 t2, dist_sq t0 t2, dist_sq t0 t1].getD i 0 =
        max (max (dist_sq t1 t2) (dist_sq t0 t2)) (dist_sq t0 t1) ∧
      (∀ j, i < j → j < 3 →
        [dist_sq t1 t2, dist_sq t0 t2, dist_sq t0 t1].getD j 0 <
          [dist_sq t1 t2, dist_sq t0 t2, dist_sq t0 t1].getD i 0) ∧
      ((voxelize_triangle_base t0 t1 t2).1, (voxelize_triangle_base t0 t1 t2).2,
          3 - (voxelize_triangle_base t0 t1 t2).1 - (voxelize_triangle_base t0 t1 t2).2) =
        ([(1, 2, 0), (0, 2, 1), (0, 1, 2)].getD i (0, 0, 0) : Nat × Nat × Nat) := by
  rw [voxelize_triangle_base_eq]
  by_cases h1 : dist_sq t0 t2 < dist_sq t1 t2
  · simp only [if_pos h1]
    by_cases h2 : dist_sq t0 t1 < dist_sq t1 t2
    · simp only [if_pos h2]
      refine ⟨0, by omega, rfl, ?_, ?_, rfl⟩
      · simp only [List.getD]
        rw [max_eq_left (le_of_lt h1), max_eq_left (le_of_lt h2)]
        rfl
      · intro j hj hj3
        interval_cases j
        · simpa using h1
        · simpa using h2
    · simp only [if_neg h2]
      refine ⟨2, by omega, rfl, ?_, ?_, rfl⟩
      · simp only [List.getD]
        rw [max_eq_left (le_of_lt h1), max_eq_right (not_lt.mp h2)]
        rfl
      · intro j hj hj3
        omega
  · simp only [if_neg h1]
    by_cases h2 : dist_sq t0 t1 < dist_sq t0 t2
    · simp only [if_pos h2]
      refine ⟨1, by omega, rfl, ?_, ?_, rfl⟩
      · simp only [List.getD]
        rw [max_eq_right (not_lt.mp h1), max_eq_left (le_of_lt h2)]
        rfl
      · intro j hj hj3
        interval_cases j
        simpa using h2
    · simp only [if_neg h2]
      refine ⟨2, by omega, rfl, ?_, ?_, rfl⟩
      · simp only [List.getD]
        rw [max_eq_right (not_lt.mp h1), max_eq_right (not_lt.mp h2)]
        rfl
      · intro j hj hj3
        omega

/-- Once the `inserted` flag is false (a chunk has been freshly allocated on
the path), the insert loop always succeeds. -/
theorem insert_go_false_ne_none (c : IVec3) (val : Rgba) :
    ∀ k t d p o n, (Octree.insert_go c val k t d p o n false).2 ≠ none := by
  intro k
  induction k with
  | zero => intro t d p o n; simp [Octree.insert_go]
  | succ k ih =>
    intro t d p o n
    simp only [Octree.insert_go, Bool.and_false, Bool.false_eq_true, if_false]
    exact ih _ _ _ _ _

/-- If the insert loop (entered with `inserted = true`) fails, the tree is
returned exactly as it was. -/
theorem insert_go_none_eq (c : IVec3) (val : Rgba) :
    ∀ k t d p o n, (Octree.insert_go c val k t d p o n true).2 = none →
      (Octree.insert_go c val k t d p o n true).1 = t := by
  intro k
  induction k with
  | zero =>
    intro t d p o n h
    by_cases hc : get_exists (dget t.data p) o
    · simp [Octree.insert_go, hc]
    · simp [Octree.insert_go, hc] at h
  | succ k ih =>
    intro t d p o n h
    by_cases hc : get_exists (dget t.data p) o
    · by_cases hf : get_final (dget t.data p) o
      · simp [Octree.insert_go, hc, hf]
      · simp only [Octree.insert_go, hc, hf, Bool.and_true, if_true, if_false,
          Bool.true_and, ite_false, ite_true] at h ⊢
        exact ih _ _ _ _ _ h
    · simp only [Octree.insert_go, hc, Bool.false_and, Bool.false_eq_true, if_false] at h
      exact absurd h (insert_go_false_ne_none c val k _ _ _ _ _)

/-- C10: `insert` is atomic on failure — whenever it returns `None` (depth
overflow, FINAL ancestor on the path, or pre-existing exact leaf), the
octree's backing data array and depth are left completely unchanged: no chunk
is allocated and no header bit is set. -/
theorem C10_insert_atomic_on_failure (t : Octree) (node : OctreePos) (val : Rgba)
    (h : (t.insert node val).2 = none) : (t.insert node val).1 = t := by
  by_cases hd : node.depth > t.depth
  · simp [Octree.insert, hd]
  · simp only [Octree.insert, hd, if_false] at h ⊢
    exact insert_go_none_eq _ _ _ _ _ _ _ _ h

theorem C10_insert_atomic_on_failure_witness :
    ((Octree.new 0).insert ⟨⟨0, 0, 0⟩, 1⟩ ⟨1, 2, 3, 4⟩).2 = none ∧
    ((Octree.new 0).insert ⟨⟨0, 0, 0⟩, 1⟩ ⟨1, 2, 3, 4⟩).1 = Octree.new 0 :=
  ⟨by decide, C10_insert_atomic_on_failure _ _ _ (by decide)⟩

/-- If the descent to `c` finds every level EXISTS with non-FINAL interior
levels (the exact leaf is present), the insert loop fails without touching the
tree. -/
theorem insert_go_path_exists_none (t : Octree) (c : IVec3) (val : Rgba) :
    ∀ k d ptr, Octree.contains_go t c (k + 1) d ptr = true →
      Octree.contains_exact_go t c k d ptr = true →
      Octree.insert_go c val k t d ptr (t.get_oct_inverted c d)
        (ptr + 1 + t.get_oct_inverted c d) true = (t, none) := by
  intro k
  induction k with
  | zero =>
    intro d ptr hpt _hex
    by_cases hc : get_exists (dget t.data ptr) (t.get_oct_inverted c d)
    · simp [Octree.insert_go, hc]
    · simp [Octree.contains_go, hc] at hpt
  | succ k ih =>
    intro d ptr hpt hex
    by_cases hc : get_exists (dget t.data ptr) (t.get_oct_inverted c d)
    · by_cases hf : get_final (dget t.data ptr) (t.get_oct_inverted c d)
      · simp [Octree.contains_exact_go, hc, hf] at hex
      · simp only [Octree.contains_go, Octree.contains_exact_go, hc, hf, Bool.not_true,
          Bool.false_eq_true, if_false, ite_false, ite_true, Bool.not_false] at hpt hex
        simp only [Octree.insert_go, hc, hf, Bool.and_true, Bool.true_and, if_true,
          ite_true, ite_false, if_false]
        exact ih (d + 1) _ hpt hex
    · simp [Octree.contains_go, hc] at hpt

/-- C4: first writer wins — when the exact leaf at the maximum depth already
exists (`contains_exact` holds and `contains_point` confirms the leaf slot is
EXISTS), a subsequent `insert` of any color at that position returns "not
inserted" and leaves the octree — hence the stored color word — completely
unchanged, and `store` at that position likewise leaves the tree unchanged. -/
theorem C4_first_writer_wins (t : Octree) (p : IVec3) (val : Rgba)
    (hex : t.contains_exact ⟨p, t.depth⟩ = true)
    (hpt : t.contains_point ⟨p, t.depth⟩ = true) :
    t.insert ⟨p, t.depth⟩ val = (t, none) ∧ t.store p val = t := by
  have hins : t.insert ⟨p, t.depth⟩ val = (t, none) := by
    unfold Octree.insert
    rw [if_neg (by simp)]
    exact insert_go_path_exists_none t p val t.depth 0 0 hpt hex
  refine ⟨hins, ?_⟩
  unfold Octree.store
  split
  · rfl
  · rw [hins]

theorem C4_first_writer_wins_witness :
    (((Octree.new 1).insert ⟨⟨1, 1, 1⟩, 1⟩ ⟨1, 2, 3, 4⟩).1.contains_exact
        ⟨⟨1, 1, 1⟩, 1⟩ = true ∧
      ((Octree.new 1).insert ⟨⟨1, 1, 1⟩, 1⟩ ⟨1, 2, 3, 4⟩).1.contains_point
        ⟨⟨1, 1, 1⟩, 1⟩ = true) ∧
    ((Octree.new 1).insert ⟨⟨1, 1, 1⟩, 1⟩ ⟨1, 2, 3, 4⟩).1.insert ⟨⟨1, 1, 1⟩, 1⟩ ⟨9, 9, 9, 9⟩ =
      (((Octree.new 1).insert ⟨⟨1, 1, 1⟩, 1⟩ ⟨1, 2, 3, 4⟩).1, none) ∧
    ((Octree.new 1).insert ⟨⟨1, 1, 1⟩, 1⟩ ⟨1, 2, 3, 4⟩).1.store ⟨1, 1, 1⟩ ⟨9, 9, 9, 9⟩ =
      ((Octree.new 1).insert ⟨⟨1, 1, 1⟩, 1⟩ ⟨1, 2, 3, 4⟩).1 := by
  refine ⟨⟨by decide, by decide⟩, ?_, ?_⟩
  · exact (C4_first_writer_wins _ _ _ (by decide) (by decide)).1
  · exact (C4_first_writer_wins _ _ _ (by decide) (by decide)).2

/-- A DDA loop state whose `t_max.x` and `t_max.z` are `+∞` while `t_max.y`
and `t_delta.y` are finite only ever advances along y, so if `map_pos.x`
disagrees with the end cell the loop never exits. -/
theorem dda_loop_stuck_x (t_delta : ExtVec3) (step : IVec3) (endc : IVec3)
    (htd : t_delta.y.isSome = true) :
    ∀ fuel s, s.map_pos.x ≠ endc.x → s.t_max.x = none → s.t_max.z = none →
      s.t_max.y.isSome = true → dda_loop t_delta step endc fuel s = none := by
  intro fuel
  induction fuel with
  | zero => intro s _ _ _ _; rfl
  | succ n ih =>
    intro s hx hmx hmz hmy
    have hne : s.map_pos ≠ endc := fun h => hx (by rw [h])
    rw [dda_loop, if_neg hne]
    obtain ⟨q, hq⟩ := Option.isSome_iff_exists.mp hmy
    obtain ⟨r, hr⟩ := Option.isSome_iff_exists.mp htd
    obtain ⟨⟨tx, ty, tz⟩, ⟨mx, my, mz⟩⟩ := s
    simp only at hx hmx hmz hq
    subst hmx hmz hq
    apply ih
    · simpa [dda_advance, ExtVec3.min_position, extLt, ExtVec3.nth, ExtVec3.set_nth,
        IVec3.nth, IVec3.set_nth] using hx
    · simp [dda_advance, ExtVec3.min_position, extLt, ExtVec3.nth, ExtVec3.set_nth]
    · simp [dda_advance, ExtVec3.min_position, extLt, ExtVec3.nth, ExtVec3.set_nth]
    · simp [dda_advance, ExtVec3.min_position, extLt, ExtVec3.nth, ExtVec3.set_nth,
        extAdd, hr]

/-- Concrete evaluation of the `voxelize_line` setup at the diverging input:
every `f32` operation is exact there. -/
theorem voxelize_line_setup_eval :
    voxelize_line_setup ⟨-1/2, 1/2, 1/2⟩ ⟨-1/2, 21/2, 1/2⟩ ⟨0, 1, 0⟩ =
      (⟨none, some 1, none⟩, ⟨1, 1, 1⟩, ⟨0, 10, 0⟩,
        ⟨⟨none, some (1/2), none⟩, ⟨-1, 0, 0⟩⟩) := by
  norm_num [voxelize_line_setup, one_over, qfloor, qtrunc, qsignum, extAbs]

/-- C5 (evaluation of the code at the failing input): for
`p1 = (-0.5, 0.5, 0.5)` and `p2 = (-0.5, 10.5, 0.5)` — distinct endpoints
whose direction normalizes exactly to the finite `(0, 1, 0)` since
`p2 - p1 = (0, 10, 0)` has length 10 — the DDA loop never terminates: the end
cell is `trunc(p2) = (0, 10, 0)` but the walk starts at
`floor(p1) = (-1, 0, 0)` and the x axis never advances (`t_max.x = +∞`), so
`map == end` never holds, for any number of iterations. -/
theorem C5_dda_nontermination :
    ((⟨-1/2, 1/2, 1/2⟩ : QVec3) ≠ ⟨-1/2, 21/2, 1/2⟩) ∧
    QVec3.sub ⟨-1/2, 21/2, 1/2⟩ ⟨-1/2, 1/2, 1/2⟩ = QVec3.smul ⟨0, 1, 0⟩ 10 ∧
    QVec3.dot ⟨0, 1, 0⟩ ⟨0, 1, 0⟩ = 1 ∧
    ∀ fuel : Nat,
      dda_loop (voxelize_line_setup ⟨-1/2, 1/2, 1/2⟩ ⟨-1/2, 21/2, 1/2⟩ ⟨0, 1, 0⟩).1
        (voxelize_line_setup ⟨-1/2, 1/2, 1/2⟩ ⟨-1/2, 21/2, 1/2⟩ ⟨0, 1, 0⟩).2.1
        (voxelize_line_setup ⟨-1/2, 1/2, 1/2⟩ ⟨-1/2, 21/2, 1/2⟩ ⟨0, 1, 0⟩).2.2.1 fuel
        (voxelize_line_setup ⟨-1/2, 1/2, 1/2⟩ ⟨-1/2, 21/2, 1/2⟩ ⟨0, 1, 0⟩).2.2.2 = none := by
  refine ⟨?_, ?_, ?_, ?_⟩
  · intro h
    exact absurd (congrArg QVec3.y h) (by norm_num)
  · norm_num [QVec3.sub, QVec3.smul]
  · norm_num [QVec3.dot]
  · intro fuel
    rw [voxelize_line_setup_eval]
    exact dda_loop_stuck_x ⟨none, some 1, none⟩ ⟨1, 1, 1⟩ ⟨0, 10, 0⟩ rfl fuel
      ⟨⟨none, some (1 / 2), none⟩, ⟨-1, 0, 0⟩⟩ (by decide) rfl rfl rfl

theorem dget_cons_zero (a : Nat) (l : List Nat) : dget (a :: l) 0 = a := rfl

theorem dget_cons_succ (a : Nat) (l : List Nat) (n : Nat) : dget (a :: l) (n + 1) = dget l n := by
  simp [dget]

theorem dget_replicate (n v m : Nat) (h : m < n) : dget (List.replicate n v) m = v := by
  simp only [dget, List.getD, List.get?_eq_getElem?]
  rw [List.getElem?_eq_getElem (by simpa using h), List.getElem_replicate]
  rfl

theorem chain_cell_shift (td : Nat) (c : IVec3) (w d k len m : Nat) (hm : 9 ≤ m) :
    chain_cell td c w d (k + 1) len m = chain_cell td c w (d + 1) k (len + 9) (m - 9) := by
  simp only [chain_cell]
  have hj : (m - 9) / 9 = m / 9 - 1 := by omega
  have hr : (m - 9) % 9 = m % 9 := by omega
  have hjj : 1 ≤ m / 9 := by omega
  have harg : d + 1 + 1 + (m / 9 - 1) = d + 1 + m / 9 := by omega
  have hsucc : m / 9 - 1 + 1 = m / 9 := by omega
  rw [hj, hr, harg, hsucc]
  by_cases hr0 : m % 9 = 0
  · rw [if_pos hr0, if_pos hr0]
    by_cases hak : m / 9 = k
    · rw [if_pos (by omega), if_pos hak]
    · rw [if_neg (by omega), if_neg hak]
  · rw [if_neg hr0, if_neg hr0]
    by_cases hsl : m % 9 = get_octree_idx c (td - (d + 1 + m / 9)) + 1
    · rw [if_pos hsl, if_pos hsl]
      by_cases hak : m / 9 = k
      · rw [if_pos (by omega), if_pos hak]
      · rw [if_neg (by omega), if_neg hak]
        omega
    · rw [if_neg hsl, if_neg hsl]

theorem chain_cell_zero_eq (td : Nat) (c : IVec3) (w d k len oj : Nat)
    (hoj : oj = get_octree_idx c (td - (d + 1))) :
    chain_cell td c w d k len 0 =
      if k = 1 then set_final (set_exists (set_header_tag (set_exists 0 oj)) oj) oj
      else set_header_tag (set_exists 0 oj) := by
  subst hoj
  simp only [chain_cell, Nat.zero_div, Nat.zero_mod, Nat.add_zero, if_true]
  by_cases hk : k = 1
  · rw [if_pos (show 0 + 1 = k by omega), if_pos hk]
  · rw [if_neg (show ¬(0 + 1 = k) by omega), if_neg hk]

theorem chain_cell_slot_eq (td : Nat) (c : IVec3) (w d k len oj : Nat)
    (hoj : oj = get_octree_idx c (td - (d + 1))) :
    chain_cell td c w d k len (1 + oj) = if k = 1 then w else len + 9 := by
  have ho : oj < 8 := hoj ▸ get_octree_idx_lt_eight c (td - (d + 1))
  simp only [chain_cell]
  have hj : (1 + oj) / 9 = 0 := by omega
  have hr : (1 + oj) % 9 = 1 + oj := by omega
  rw [hj, hr]
  simp only [Nat.add_zero]
  rw [if_neg (show ¬(1 + oj = 0) by omega),
    if_pos (show 1 + oj = get_octree_idx c (td - (d + 1)) + 1 by omega)]
  by_cases hk : k = 1
  · rw [if_pos (show 0 + 1 = k by omega), if_pos hk]
  · rw [if_neg (show ¬(0 + 1 = k) by omega), if_neg hk]

theorem chain_cell_other_eq (td : Nat) (c : IVec3) (w d k len m oj : Nat)
    (hoj : oj = get_octree_idx c (td - (d + 1)))
    (hm : m < 9) (h0 : m ≠ 0) (hs : m ≠ 1 + oj) :
    chain_cell td c w d k len m = 69420420 := by
  simp only [chain_cell]
  have hj : m / 9 = 0 := by omega
  have hr : m % 9 = m := by omega
  rw [hj, hr]
  simp only [Nat.add_zero]
  rw [if_neg h0, if_neg (show ¬(m = get_octree_idx c (td - (d + 1)) + 1) by omega)]

theorem insert_go_alloc (c : IVec3) (val : Rgba) :
    ∀ k t d ptr oct ins,
      oct = get_octree_idx c (t.depth - d) →
      oct < 8 →
      ptr + 9 ≤ t.data.length →
      (ins = false ∨ get_exists (dget t.data ptr) oct = false) →
      (Octree.insert_go c val k t d ptr oct (ptr + 1 + oct) ins).1.depth = t.depth ∧
      (Octree.insert_go c val k t d ptr oct (ptr + 1 + oct) ins).1.data.length =
        t.data.length + 9 * k ∧
      (Octree.insert_go c val k t d ptr oct (ptr + 1 + oct) ins).2.isSome = true ∧
      ∀ i, dget (Octree.insert_go c val k t d ptr oct (ptr + 1 + oct) ins).1.data i =
        if i = ptr then
          (if k = 0 then set_final (set_exists (dget t.data ptr) oct) oct
           else set_exists (dget t.data ptr) oct)
        else if i = ptr + 1 + oct then
          (if k = 0 then from_color val else t.data.length)
        else if i < t.data.length then dget t.data i
        else if i < t.data.length + 9 * k then
          chain_cell t.depth c (from_color val) d k t.data.length (i - t.data.length)
        else 0 := by
  intro k
  induction k with
  | zero =>
    intro t d ptr oct ins _hoct ho8 hb hyp
    have hcond : (get_exists (dget t.data ptr) oct && ins) = false := by
      rcases hyp with h | h
      · rw [h, Bool.and_false]
      · rw [h, Bool.false_and]
    refine ⟨?_, ?_, ?_, ?_⟩
    · simp only [Octree.insert_go, hcond, Bool.false_eq_true, if_false]
    · simp only [Octree.insert_go, hcond, Bool.false_eq_true, if_false, List.length_set]
      omega
    · simp only [Octree.insert_go, hcond, Bool.false_eq_true, if_false, Option.isSome_some]
    · intro i
      simp only [Octree.insert_go, hcond, Bool.false_eq_true, if_false, if_true]
      by_cases h1 : i = ptr
      · subst h1
        rw [if_pos rfl]
        rw [dget_set_ne _ _ _ _ (by omega), dget_set_self _ _ _ (by omega)]
      · rw [if_neg h1]
        by_cases h2 : i = ptr + 1 + oct
        · subst h2
          rw [if_pos rfl]
          rw [dget_set_self]
          simp only [List.length_set]
          omega
        · rw [if_neg h2]
          by_cases h3 : i < t.data.length
          · rw [if_pos h3, dget_set_ne _ _ _ _ (Ne.symm h2), dget_set_ne _ _ _ _ (Ne.symm h1)]
          · rw [if_neg h3]
            rw [if_neg (by omega)]
            apply dget_ge_length
            simp only [List.length_set]
            omega
  | succ k ih =>
    intro t d ptr oct ins hoct ho8 hb hyp
    have hcond : (get_exists (dget t.data ptr) oct && ins) = false := by
      rcases hyp with h | h
      · rw [h, Bool.and_false]
      · rw [h, Bool.false_and]
    simp only [Octree.insert_go, hcond, Bool.false_eq_true, if_false,
      Octree.create_new_oct]
    have hno8 : t.get_oct_inverted c (d + 1) < 8 := get_octree_idx_lt_eight _ _
    set no := t.get_oct_inverted c (d + 1) with hno_def
    set len := t.data.length with hlen_def
    set ch : List Nat := set_header_tag (set_exists 0 no) :: List.replicate 8 69420420
      with hch_def
    set data3 : List Nat :=
      (((t.data ++ ch).set ptr (set_exists (dget (t.data ++ ch) ptr) oct)).set
        (ptr + 1 + oct) len) with hdata3_def
    have hchlen : ch.length = 9 := by simp [hch_def]
    have hlen1 : data3.length = len + 9 := by
      simp [hdata3_def, hchlen]
    have hd_ptr : dget data3 ptr = set_exists (dget t.data ptr) oct := by
      rw [hdata3_def, dget_set_ne _ _ _ _ (by omega),
        dget_set_self _ _ _ (by simp [hchlen]; omega), dget_append_lt _ _ _ (by omega)]
    have hd_slot : dget data3 (ptr + 1 + oct) = len := by
      rw [hdata3_def, dget_set_self _ _ _ (by simp [hchlen]; omega)]
    have hd_lt : ∀ i, i < len → i ≠ ptr → i ≠ ptr + 1 + oct → dget data3 i = dget t.data i := by
      intro i hi h1 h2
      rw [hdata3_def, dget_set_ne _ _ _ _ (Ne.symm h2), dget_set_ne _ _ _ _ (Ne.symm h1),
        dget_append_lt _ _ _ hi]
    have hd_len : dget data3 len = set_header_tag (set_exists 0 no) := by
      rw [hdata3_def, dget_set_ne _ _ _ _ (by omega), dget_set_ne _ _ _ _ (by omega),
        dget_append_right _ _ _ (by omega)]
      simp [hch_def, dget]
    have hd_ch : ∀ i, len < i → i < len + 9 → dget data3 i = 69420420 := by
      intro i hi1 hi2
      rw [hdata3_def, dget_set_ne _ _ _ _ (by omega), dget_set_ne _ _ _ _ (by omega),
        dget_append_right _ _ _ (by omega), hch_def]
      have h1 : i - len = (i - len - 1) + 1 := by omega
      rw [h1, dget_cons_succ, dget_replicate _ _ _ (by omega)]
    obtain ⟨ihd, ihl, ihs, ihg⟩ := ih ⟨data3, t.depth⟩ (d + 1) len no false
      (by exact hno_def) hno8 (by simp [hlen1]) (Or.inl rfl)
    refine ⟨ihd, ?_, ihs, ?_⟩
    · rw [ihl]
      simp only [hlen1]
      omega
    · intro i
      rw [ihg i]
      simp only [hlen1]
      by_cases h1 : i = ptr
      · rw [h1, if_neg (show ¬(ptr = len) by omega),
          if_neg (show ¬(ptr = len + 1 + no) by omega),
          if_pos (show ptr < len + 9 by omega), hd_ptr, if_pos rfl,
          if_neg (show ¬(k + 1 = 0) by omega)]
      · by_cases h2 : i = ptr + 1 + oct
        · rw [h2, if_neg (show ¬(ptr + 1 + oct = len) by omega),
            if_neg (show ¬(ptr + 1 + oct = len + 1 + no) by omega),
            if_pos (show ptr + 1 + oct < len + 9 by omega), hd_slot,
            if_neg (show ¬(ptr + 1 + oct = ptr) by omega), if_pos rfl,
            if_neg (show ¬(k + 1 = 0) by omega)]
        · by_cases h3 : i < len
          · rw [if_neg (show ¬(i = len) by omega), if_neg (show ¬(i = len + 1 + no) by omega),
              if_pos (show i < len + 9 by omega), hd_lt i h3 h1 h2,
              if_neg h1, if_neg h2, if_pos h3]
          · by_cases h4 : i = len
            · rw [h4, if_pos rfl, hd_len, if_neg (show ¬(len = ptr) by omega),
                if_neg (show ¬(len = ptr + 1 + oct) by omega),
                if_neg (show ¬(len < len) by omega),
                if_pos (show len < len + 9 * (k + 1) by omega)]
              have hz : len - len = 0 := by omega
              rw [hz, chain_cell_zero_eq _ _ _ _ _ _ no (by exact hno_def)]
              by_cases hk0 : k = 0
              · rw [if_pos hk0, if_pos (show k + 1 = 1 by omega)]
              · rw [if_neg hk0, if_neg (show ¬(k + 1 = 1) by omega),
                  se_eq_self _ _ (by rw [ge_tag _ _ hno8]; exact ge_se_self _ _)]
            · by_cases h5 : i = len + 1 + no
              · rw [h5, if_neg (show ¬(len + 1 + no = len) by omega), if_pos rfl,
                  if_neg (show ¬(len + 1 + no = ptr) by omega),
                  if_neg (show ¬(len + 1 + no = ptr + 1 + oct) by omega),
                  if_neg (show ¬(len + 1 + no < len) by omega),
                  if_pos (show len + 1 + no < len + 9 * (k + 1) by omega)]
                have hm : len + 1 + no - len = 1 + no := by omega
                rw [hm, chain_cell_slot_eq _ _ _ _ _ _ no (by exact hno_def)]
                by_cases hk0 : k = 0
                · rw [if_pos hk0, if_pos (show k + 1 = 1 by omega)]
                · rw [if_neg hk0, if_neg (show ¬(k + 1 = 1) by omega)]
              · by_cases h6 : i < len + 9
                · rw [if_neg h4, if_neg h5, if_pos h6, hd_ch i (by omega) h6,
                    if_neg h1, if_neg h2, if_neg (show ¬(i < len) by omega),
                    if_pos (show i < len + 9 * (k + 1) by omega)]
                  rw [chain_cell_other_eq _ _ _ _ _ _ (i - len) no (by exact hno_def)
                    (by omega) (by omega) (by omega)]
                · by_cases h7 : i < len + 9 + 9 * k
                  · rw [if_neg h4, if_neg h5, if_neg h6, if_pos h7,
                      if_neg h1, if_neg h2, if_neg (show ¬(i < len) by omega),
                      if_pos (show i < len + 9 * (k + 1) by omega),
                      chain_cell_shift _ _ _ _ _ _ _ (show 9 ≤ i - len by omega)]
                    have heq : i - len - 9 = i - (len + 9) := by omega
                    rw [heq]
                  · rw [if_neg h4, if_neg h5, if_neg h6, if_neg h7,
                      if_neg h1, if_neg h2, if_neg (show ¬(i < len) by omega),
                      if_neg (show ¬(i < len + 9 * (k + 1)) by omega)]

/-- Finer frame rule: the walks agree as long as every read the `L`-walk
performs (EXISTS bit, FINAL bit, and followed slot of the consumed octant)
gives the same answer in `Lp`. -/
theorem offW_frame2 (L Lp : List Nat) :
    ∀ q off,
      (∀ r offr, r < q.length → offW L (q.take r) off = some offr →
        get_exists (dget Lp offr) (q.getD r 0) = get_exists (dget L offr) (q.getD r 0) ∧
        get_final (dget Lp offr) (q.getD r 0) = get_final (dget L offr) (q.getD r 0) ∧
        dget Lp (offr + 1 + q.getD r 0) = dget L (offr + 1 + q.getD r 0)) →
      offW Lp q off = offW L q off := by
  intro q
  induction q with
  | nil => intro off _; rfl
  | cons o p ih =>
    intro off hag
    obtain ⟨he, hf, hs⟩ := hag 0 off (by simp) rfl
    simp only [List.getD_cons_zero] at he hf hs
    rw [offW_cons, offW_cons, he, hf]
    by_cases hc : (get_exists (dget L off) o && !get_final (dget L off) o) = true
    · rw [if_pos hc, if_pos hc, hs]
      apply ih
      intro r offr hr hoffr
      have := hag (r + 1) offr (by simpa using hr) ?_
      · simpa using this
      · rw [List.take_succ_cons, offW_cons, if_pos hc]
        exact hoffr
    · rw [if_neg hc, if_neg hc]

theorem seg_zero (td : Nat) (c : IVec3) (r : Nat) : seg td c r 0 = [] := rfl

theorem seg_cons (td : Nat) (c : IVec3) (r m : Nat) :
    seg td c r (m + 1) = get_octree_idx c (td - r) :: seg td c (r + 1) m := by
  simp only [seg, List.range_succ_eq_map, List.map_cons, List.map_map, Nat.add_zero]
  refine congrArg _ ?_
  apply List.map_congr_left
  intro u _
  simp only [Function.comp_apply]
  congr 1
  omega

theorem pfx_eq_seg (td : Nat) (c : IVec3) (j : Nat) : pfx td c j = seg td c 0 j := by
  simp [pfx, seg]

theorem seg_length (td : Nat) (c : IVec3) (r m : Nat) : (seg td c r m).length = m := by
  simp [seg]

theorem PathOk_seg (td : Nat) (c : IVec3) (r m : Nat) : PathOk (seg td c r m) := by
  intro o ho
  simp only [seg, List.mem_map, List.mem_range] at ho
  obtain ⟨u, _, rfl⟩ := ho
  exact get_octree_idx_lt_eight c _

theorem pfx_append_seg (td : Nat) (c : IVec3) (j m : Nat) :
    pfx td c (j + m) = pfx td c j ++ seg td c j m := by
  simp only [pfx, seg, List.range_add, List.map_append, List.map_map]
  refine congrArg _ ?_
  apply List.map_congr_left
  intro u _
  simp only [Function.comp_apply]

theorem ge_tag_se (x o : Nat) (ho : o < 8) :
    get_exists (set_header_tag (set_exists 0 x)) o = decide (o = x) := by
  rw [ge_tag _ _ ho]
  by_cases hox : o = x
  · subst hox
    simp [ge_se_self]
  · simp [ge_se_ne _ _ _ hox, ge_zero, hox]

theorem gf_tag_se (x o : Nat) (ho : o < 8) (hx : x < 8) :
    get_final (set_header_tag (set_exists 0 x)) o = false := by
  rw [gf_tag _ _ ho, gf_se _ _ _ hx, gf_zero]

theorem ge_last_hdr (b o : Nat) (ho : o < 8) :
    get_exists (set_final (set_exists (set_header_tag (set_exists 0 b)) b) b) o =
      decide (o = b) := by
  rw [ge_sf _ _ _ ho]
  by_cases hob : o = b
  · subst hob
    simp [ge_se_self]
  · rw [ge_se_ne _ _ _ hob, ge_tag _ _ ho]
    simp [ge_se_ne _ _ _ hob, ge_zero, hob]

theorem gf_last_hdr (b o : Nat) (ho : o < 8) (hb : b < 8) :
    get_final (set_final (set_exists (set_header_tag (set_exists 0 b)) b) b) o =
      decide (o = b) := by
  by_cases hob : o = b
  · subst hob
    simp [gf_sf_self]
  · rw [gf_sf_ne _ _ _ hob, gf_se _ _ _ hb, gf_tag _ _ ho, gf_se _ _ _ hb, gf_zero]
    simp [hob]

theorem chain_cell_hdr (td : Nat) (c : IVec3) (w d k len q0 oj : Nat)
    (hoj : oj = get_octree_idx c (td - (d + 1 + q0))) :
    chain_cell td c w d k len (9 * q0) =
      if q0 + 1 = k then set_final (set_exists (set_header_tag (set_exists 0 oj)) oj) oj
      else set_header_tag (set_exists 0 oj) := by
  subst hoj
  simp only [chain_cell]
  have hj : 9 * q0 / 9 = q0 := by omega
  have hr : 9 * q0 % 9 = 0 := by omega
  rw [hj, hr, if_pos rfl]

theorem chain_cell_slotg (td : Nat) (c : IVec3) (w d k len q0 oj : Nat)
    (hoj : oj = get_octree_idx c (td - (d + 1 + q0))) :
    chain_cell td c w d k len (9 * q0 + 1 + oj) =
      if q0 + 1 = k then w else len + 9 * (q0 + 1) := by
  have ho : oj < 8 := hoj ▸ get_octree_idx_lt_eight c _
  simp only [chain_cell]
  have hj : (9 * q0 + 1 + oj) / 9 = q0 := by omega
  have hr : (9 * q0 + 1 + oj) % 9 = 1 + oj := by omega
  rw [hj, hr, if_neg (show ¬(1 + oj = 0) by omega),
    if_pos (show 1 + oj = get_octree_idx c (td - (d + 1 + q0)) + 1 by omega)]

theorem chain_cell_otherg (td : Nat) (c : IVec3) (w d k len m oj : Nat)
    (hoj : oj = get_octree_idx c (td - (d + 1 + m / 9)))
    (h0 : m % 9 ≠ 0) (hs : m % 9 ≠ 1 + oj) :
    chain_cell td c w d k len m = 69420420 := by
  simp only [chain_cell]
  rw [if_neg h0,
    if_neg (show ¬(m % 9 = get_octree_idx c (td - (d + 1 + m / 9)) + 1) by omega)]

/-- Walking the freshly appended chunk chain: starting at the chain chunk of
level `r`, a path is followed to the end exactly when it spells out the
descent octants of levels `r, r+1, ...` and stays at or above the leaf level;
every deviation dies (chain chunks have exactly one EXISTS child, the last
one has it FINAL). -/
theorem chain_walk (td : Nat) (c : IVec3) (Lp : List Nat) (len j nd : Nat)
    (hhdr : ∀ r, j < r → r ≤ nd → dget Lp (len + 9 * (r - j - 1)) =
      (if r = nd then
        set_final (set_exists (set_header_tag (set_exists 0 (get_octree_idx c (td - r))))
          (get_octree_idx c (td - r))) (get_octree_idx c (td - r))
       else set_header_tag (set_exists 0 (get_octree_idx c (td - r)))))
    (hslot : ∀ r, j < r → r < nd →
      dget Lp (len + 9 * (r - j - 1) + 1 + get_octree_idx c (td - r)) =
        len + 9 * (r - j)) :
    ∀ rest r, PathOk rest → j < r → r ≤ nd →
      offW Lp rest (len + 9 * (r - j - 1)) =
        if r + rest.length ≤ nd ∧ rest = seg td c r rest.length then
          some (len + 9 * (r + rest.length - j - 1))
        else none := by
  intro rest
  induction rest with
  | nil =>
    intro r _ hjr hrnd
    simp only [offW_nil, List.length_nil, Nat.add_zero, seg_zero]
    rw [if_pos ⟨hrnd, trivial⟩]
  | cons o p ih =>
    intro r hok hjr hrnd
    have ho8 : o < 8 := hok o (List.mem_cons_self o p)
    have hP8 : get_octree_idx c (td - r) < 8 := get_octree_idx_lt_eight c _
    rw [offW_cons, hhdr r hjr hrnd]
    by_cases hrnd2 : r = nd
    · rw [if_pos hrnd2, ge_last_hdr _ _ ho8, gf_last_hdr _ _ ho8 hP8]
      have hcnone : (decide (o = get_octree_idx c (td - r)) &&
          !decide (o = get_octree_idx c (td - r))) = false := by
        by_cases h : o = get_octree_idx c (td - r) <;> simp [h]
      rw [hcnone]
      simp only [Bool.false_eq_true, if_false]
      rw [if_neg ?lastside]
      case lastside =>
        intro hcontra
        have hlen := hcontra.1
        simp only [List.length_cons] at hlen
        omega
    · rw [if_neg hrnd2, ge_tag_se _ _ ho8, gf_tag_se _ _ ho8 hP8]
      by_cases hoP : o = get_octree_idx c (td - r)
      · rw [if_pos (by simp [hoP])]
        subst hoP
        rw [hslot r hjr (by omega)]
        have hstep : len + 9 * (r - j) = len + 9 * (r + 1 - j - 1) := by
          congr 1
          omega
        rw [hstep, ih (r + 1) (fun x hx => hok x (List.mem_cons_of_mem _ hx)) (by omega)
          (by omega)]
        by_cases hc : r + 1 + p.length ≤ nd ∧ p = seg td c (r + 1) p.length
        · rw [if_pos hc, if_pos ?side]
          case side =>
            constructor
            · simp only [List.length_cons]
              omega
            · simp only [List.length_cons]
              rw [seg_cons]
              exact List.cons_eq_cons.mpr ⟨rfl, hc.2⟩
          have hA : r + 1 + p.length - j - 1 =
              r + (get_octree_idx c (td - r) :: p).length - j - 1 := by
            simp only [List.length_cons]
            omega
          rw [hA]
        · rw [if_neg hc, if_neg ?side2]
          case side2 =>
            intro hcontra
            apply hc
            obtain ⟨h1, h2⟩ := hcontra
            simp only [List.length_cons] at h1 h2
            rw [seg_cons] at h2
            obtain ⟨_, h3⟩ := List.cons_eq_cons.mp h2
            exact ⟨by omega, h3⟩
      · rw [if_neg (by simp [hoP])]
        rw [if_neg ?side3]
        case side3 =>
          intro hcontra
          obtain ⟨_, h2⟩ := hcontra
          simp only [List.length_cons] at h2
          rw [seg_cons] at h2
          exact hoP (List.cons_eq_cons.mp h2).1

/-- Evaluate `leafW` once the interior walk is known to succeed. -/
theorem leafW_eq_some (L : List Nat) (q : List Nat) (lo off : Nat)
    (h : offW L q 0 = some off) :
    leafW L q lo =
      if get_exists (dget L off) lo && get_final (dget L off) lo then
        some (dget L (off + 1 + lo))
      else none := by
  unfold leafW
  rw [h]

theorem leafW_eq_none (L : List Nat) (q : List Nat) (lo : Nat)
    (h : offW L q 0 = none) : leafW L q lo = none := by
  unfold leafW
  rw [h]

theorem insert_scenario_B (t : Octree) (wf : WF t) (c : IVec3) (val : Rgba)
    (nd j ptr : Nat) (hjnd : j < nd) (hnd : nd ≤ t.depth)
    (hoff : offW t.data (pfx t.depth c j) 0 = some ptr)
    (hex : get_exists (dget t.data ptr) (get_octree_idx c (t.depth - j)) = false) :
    (Octree.insert_go c val (nd - j) t j ptr (get_octree_idx c (t.depth - j))
        (ptr + 1 + get_octree_idx c (t.depth - j)) true).2.isSome = true ∧
    InsertAdds t
      (Octree.insert_go c val (nd - j) t j ptr (get_octree_idx c (t.depth - j))
        (ptr + 1 + get_octree_idx c (t.depth - j)) true).1
      (pfx t.depth c nd) (get_octree_idx c (t.depth - nd)) (from_color val) := by
  have hoct8 : get_octree_idx c (t.depth - j) < 8 := get_octree_idx_lt_eight c _
  obtain ⟨hptr9, hptrlen⟩ := wf.bounds _ _ (PathOk_pfx _ _ _) hoff
  have hfinj : get_final (dget t.data ptr) (get_octree_idx c (t.depth - j)) = false := by
    by_contra hcon
    have := wf.fin_sub _ _ (PathOk_pfx _ _ _) hoff _ hoct8
      (by revert hcon; cases get_final (dget t.data ptr) (get_octree_idx c (t.depth - j)) <;>
        simp)
    rw [this] at hex
    exact Bool.true_eq_false.mp hex
  obtain ⟨Gd, Gl, Gs, G⟩ := insert_go_alloc c val (nd - j) t j ptr
    (get_octree_idx c (t.depth - j)) true rfl hoct8 hptrlen (Or.inr hex)
  set R := Octree.insert_go c val (nd - j) t j ptr (get_octree_idx c (t.depth - j))
    (ptr + 1 + get_octree_idx c (t.depth - j)) true with hR
  have hKpos : 0 < nd - j := by omega
  -- chain chunk headers
  have hhdr : ∀ r, j < r → r ≤ nd → dget R.1.data (t.data.length + 9 * (r - j - 1)) =
      (if r = nd then
        set_final (set_exists (set_header_tag (set_exists 0 (get_octree_idx c (t.depth - r))))
          (get_octree_idx c (t.depth - r))) (get_octree_idx c (t.depth - r))
       else set_header_tag (set_exists 0 (get_octree_idx c (t.depth - r)))) := by
    intro r h1 h2
    rw [G]
    rw [if_neg (show ¬(t.data.length + 9 * (r - j - 1) = ptr) by omega),
      if_neg (show ¬(t.data.length + 9 * (r - j - 1) = ptr + 1 + get_octree_idx c (t.depth - j))
        by omega),
      if_neg (show ¬(t.data.length + 9 * (r - j - 1) < t.data.length) by omega),
      if_pos (show t.data.length + 9 * (r - j - 1) < t.data.length + 9 * (nd - j) by omega)]
    have hm : t.data.length + 9 * (r - j - 1) - t.data.length = 9 * (r - j - 1) := by omega
    rw [hm, chain_cell_hdr _ _ _ _ _ _ (r - j - 1) (get_octree_idx c (t.depth - r))
      (congrArg _ (by omega))]
    by_cases hrnd : r = nd
    · rw [if_pos (by omega), if_pos hrnd]
    · rw [if_neg (by omega), if_neg hrnd]
  -- chain chunk followed slots
  have hslotCW : ∀ r, j < r → r < nd →
      dget R.1.data (t.data.length + 9 * (r - j - 1) + 1 + get_octree_idx c (t.depth - r)) =
        t.data.length + 9 * (r - j) := by
    intro r h1 h2
    have ho : get_octree_idx c (t.depth - r) < 8 := get_octree_idx_lt_eight c _
    rw [G]
    rw [if_neg (show ¬(_ = ptr) by omega),
      if_neg (show ¬(_ = ptr + 1 + get_octree_idx c (t.depth - j)) by omega),
      if_neg (show ¬(_ < t.data.length) by omega),
      if_pos (show _ < t.data.length + 9 * (nd - j) by omega)]
    have hm : t.data.length + 9 * (r - j - 1) + 1 + get_octree_idx c (t.depth - r) -
        t.data.length = 9 * (r - j - 1) + 1 + get_octree_idx c (t.depth - r) := by omega
    rw [hm, chain_cell_slotg _ _ _ _ _ _ (r - j - 1) (get_octree_idx c (t.depth - r))
      (congrArg _ (by omega))]
    rw [if_neg (show ¬(r - j - 1 + 1 = nd - j) by omega)]
    congr 1
    omega
  -- the color slot of the final chain chunk
  have hslotw : dget R.1.data
      (t.data.length + 9 * (nd - j - 1) + 1 + get_octree_idx c (t.depth - nd)) =
        from_color val := by
    have ho : get_octree_idx c (t.depth - nd) < 8 := get_octree_idx_lt_eight c _
    rw [G]
    rw [if_neg (show ¬(_ = ptr) by omega),
      if_neg (show ¬(_ = ptr + 1 + get_octree_idx c (t.depth - j)) by omega),
      if_neg (show ¬(_ < t.data.length) by omega),
      if_pos (show _ < t.data.length + 9 * (nd - j) by omega)]
    have hm : t.data.length + 9 * (nd - j - 1) + 1 + get_octree_idx c (t.depth - nd) -
        t.data.length = 9 * (nd - j - 1) + 1 + get_octree_idx c (t.depth - nd) := by omega
    rw [hm, chain_cell_slotg _ _ _ _ _ _ (nd - j - 1) (get_octree_idx c (t.depth - nd))
      (congrArg _ (by omega))]
    rw [if_pos (show nd - j - 1 + 1 = nd - j by omega)]
  -- cell-level facts about the modified chunk at ptr
  have hGptr : dget R.1.data ptr =
      set_exists (dget t.data ptr) (get_octree_idx c (t.depth - j)) := by
    rw [G, if_pos rfl, if_neg (show ¬(nd - j = 0) by omega)]
  have hGslotptr : dget R.1.data (ptr + 1 + get_octree_idx c (t.depth - j)) =
      t.data.length := by
    rw [G, if_neg (show ¬(ptr + 1 + get_octree_idx c (t.depth - j) = ptr) by omega),
      if_pos rfl, if_neg (show ¬(nd - j = 0) by omega)]
  have hcell : ∀ i, i ≠ ptr → i ≠ ptr + 1 + get_octree_idx c (t.depth - j) →
      i < t.data.length → dget R.1.data i = dget t.data i := by
    intro i h1 h2 h3
    rw [G, if_neg h1, if_neg h2, if_pos h3]
  -- walks not passing through the modified octant of ptr are unchanged
  have hframe : ∀ q, PathOk q →
      ¬(j < q.length ∧ q.take (j + 1) = pfx t.depth c (j + 1)) →
      offW R.1.data q 0 = offW t.data q 0 := by
    intro q hok hnot
    apply offW_frame2
    intro r offr hr hoffr
    have hokr : PathOk (q.take r) := fun o ho => hok o (List.mem_of_mem_take ho)
    obtain ⟨h9, hlen⟩ := wf.bounds _ _ hokr hoffr
    have hqr : q.getD r 0 < 8 := by
      have hmem : q.getD r 0 ∈ q := by
        rw [List.getD_eq_getElem q 0 hr]
        exact List.getElem_mem hr
      exact hok _ hmem
    by_cases hop : offr = ptr
    · have htake : q.take r = pfx t.depth c j := by
        by_contra hne
        exact (wf.inj _ _ _ _ hokr (PathOk_pfx _ _ _) hoffr hoff hne) hop
      have hrj : r = j := by
        have := congrArg List.length htake
        rw [List.length_take, pfx_length] at this
        omega
      subst hrj
      subst hop
      have hqj : q.getD r 0 ≠ get_octree_idx c (t.depth - r) := by
        intro heq
        apply hnot
        refine ⟨hr, ?_⟩
        rw [List.take_succ, List.getElem?_eq_getElem hr, htake, pfx_succ]
        show pfx t.depth c r ++ [q[r]] = pfx t.depth c r ++ [get_octree_idx c (t.depth - r)]
        rw [← List.getD_eq_getElem q 0 hr, heq]
      refine ⟨?_, ?_, ?_⟩
      · rw [hGptr, ge_se_ne _ _ _ hqj]
      · rw [hGptr, gf_se _ _ _ hoct8]
      · apply hcell
        · omega
        · intro hcontra
          apply hqj
          omega
        · omega
    · refine ⟨?_, ?_, ?_⟩
      · rw [hcell offr hop (by omega) (by omega)]
      · rw [hcell offr hop (by omega) (by omega)]
      · rw [hcell (offr + 1 + q.getD r 0) (by omega) (by intro hcontra; apply hop; omega)
          (by omega)]
  -- the old array has no walk through the missing octant
  have hWnone1 : offW t.data (pfx t.depth c (j + 1)) 0 = none := by
    rw [pfx_succ, offW_append, hoff]
    show offW t.data [get_octree_idx c (t.depth - j)] ptr = none
    rw [offW_cons, hex]
    simp
  have hWpfxj : offW R.1.data (pfx t.depth c j) 0 = some ptr := by
    refine (hframe _ (PathOk_pfx _ _ _) ?_).trans hoff
    intro hcontra
    rw [pfx_length] at hcontra
    exact Nat.lt_irrefl j hcontra.1
  have hWpfxj1 : offW R.1.data (pfx t.depth c (j + 1)) 0 = some t.data.length := by
    rw [pfx_succ, offW_append, hWpfxj]
    show offW R.1.data [get_octree_idx c (t.depth - j)] ptr = some t.data.length
    rw [offW_cons, hGptr, ge_se_self, gf_se _ _ _ hoct8, hfinj]
    rw [if_pos (by simp), hGslotptr]
    exact offW_nil _ _
  have hLnone : ∀ q : List Nat, j < q.length → q.take (j + 1) = pfx t.depth c (j + 1) →
      offW t.data q 0 = none := by
    intro q hlen htake
    conv_lhs => rw [← List.take_append_drop (j + 1) q]
    rw [offW_append, htake, hWnone1]
    rfl
  -- full characterization of walks in the new array
  have hchar : ∀ q, PathOk q →
      offW R.1.data q 0 =
        if j < q.length ∧ q.length ≤ nd ∧ q = pfx t.depth c q.length then
          some (t.data.length + 9 * (q.length - j - 1))
        else offW t.data q 0 := by
    intro q hok
    by_cases hD : j < q.length ∧ q.take (j + 1) = pfx t.depth c (j + 1)
    · obtain ⟨hD1, hD2⟩ := hD
      have hCW := chain_walk t.depth c R.1.data t.data.length j nd hhdr hslotCW
      have hdropok : PathOk (q.drop (j + 1)) := fun o ho => hok o (List.mem_of_mem_drop ho)
      have hrest := hCW (q.drop (j + 1)) (j + 1) hdropok (Nat.lt_succ_self j) (by omega)
      have h00 : t.data.length + 9 * (j + 1 - j - 1) = t.data.length := by omega
      rw [h00] at hrest
      have hdl : (q.drop (j + 1)).length = q.length - (j + 1) := by
        rw [List.length_drop]
      have hqlen : j + 1 + (q.drop (j + 1)).length = q.length := by
        rw [hdl]
        omega
      have hsplit : pfx t.depth c (j + 1) ++ q.drop (j + 1) = q := by
        conv_rhs => rw [← List.take_append_drop (j + 1) q]
        rw [hD2]
      have hLHS : offW R.1.data q 0 = offW R.1.data (q.drop (j + 1)) t.data.length := by
        conv_lhs => rw [← List.take_append_drop (j + 1) q]
        rw [offW_append, hD2, hWpfxj1]
        rfl
      rw [hLHS, hrest]
      have hiff : (j + 1 + (q.drop (j + 1)).length ≤ nd ∧
          q.drop (j + 1) = seg t.depth c (j + 1) (q.drop (j + 1)).length) ↔
          (j < q.length ∧ q.length ≤ nd ∧ q = pfx t.depth c q.length) := by
        have hm : q.length = (j + 1) + (q.length - (j + 1)) := by omega
        constructor
        · rintro ⟨h1, h2⟩
          refine ⟨hD1, by omega, ?_⟩
          calc q = pfx t.depth c (j + 1) ++ q.drop (j + 1) := hsplit.symm
          _ = pfx t.depth c (j + 1) ++ seg t.depth c (j + 1) (q.length - (j + 1)) := by
              rw [← hdl, ← h2]
          _ = pfx t.depth c ((j + 1) + (q.length - (j + 1))) := (pfx_append_seg _ _ _ _).symm
          _ = pfx t.depth c q.length := by rw [← hm]
        · rintro ⟨h1, h2, h3⟩
          refine ⟨by omega, ?_⟩
          have h4 : pfx t.depth c (j + 1) ++ q.drop (j + 1) =
              pfx t.depth c (j + 1) ++ seg t.depth c (j + 1) (q.length - (j + 1)) := by
            calc pfx t.depth c (j + 1) ++ q.drop (j + 1) = q := hsplit
            _ = pfx t.depth c q.length := h3
            _ = pfx t.depth c ((j + 1) + (q.length - (j + 1))) := by rw [← hm]
            _ = _ := pfx_append_seg _ _ _ _
          rw [hdl]
          exact List.append_cancel_left h4
      by_cases hC : j < q.length ∧ q.length ≤ nd ∧ q = pfx t.depth c q.length
      · rw [if_pos (hiff.mpr hC), if_pos hC, hqlen]
      · rw [if_neg (fun hc => hC (hiff.mp hc)), if_neg hC]
        exact (hLnone q hD1 hD2).symm
    · rw [hframe q hok hD]
      by_cases hC : j < q.length ∧ q.length ≤ nd ∧ q = pfx t.depth c q.length
      · exfalso
        apply hD
        refine ⟨hC.1, ?_⟩
        rw [hC.2.2, pfx_take _ _ _ _ (by omega)]
      · rw [if_neg hC]
  obtain ⟨m9, hm9⟩ := wf.len9
  -- the leaf map update
  have hUPD : ∀ q lo, PathOk q → lo < 8 →
      leafW R.1.data q lo =
        if q = pfx t.depth c nd ∧ lo = get_octree_idx c (t.depth - nd) then
          some (from_color val)
        else leafW t.data q lo := by
    intro q lo hok hlo
    have hchq := hchar q hok
    by_cases hC : j < q.length ∧ q.length ≤ nd ∧ q = pfx t.depth c q.length
    · rw [if_pos hC] at hchq
      obtain ⟨hC1, hC2, hC3⟩ := hC
      rw [leafW_eq_some _ _ _ _ hchq]
      have hhd := hhdr q.length hC1 hC2
      by_cases hqn : q.length = nd
      · subst hqn
        rw [if_pos rfl] at hhd
        rw [hhd, ge_last_hdr _ _ hlo, gf_last_hdr _ _ hlo (get_octree_idx_lt_eight c _)]
        by_cases hlob : lo = get_octree_idx c (t.depth - q.length)
        · rw [if_pos (by simp [hlob]), if_pos ⟨hC3, hlob⟩, hlob]
          exact congrArg some hslotw
        · rw [if_neg (by simp [hlob]), if_neg (fun hc => hlob hc.2)]
          rw [leafW_eq_none _ _ _ (hLnone q hC1 (by rw [hC3, pfx_take _ _ _ _ (by omega)]))]
      · rw [if_neg hqn] at hhd
        rw [hhd, gf_tag_se _ _ hlo (get_octree_idx_lt_eight c _), Bool.and_false]
        rw [if_neg Bool.false_ne_true]
        rw [if_neg (fun hc => by
          have hx := congrArg List.length hc.1
          rw [pfx_length] at hx
          exact hqn hx)]
        rw [leafW_eq_none _ _ _ (hLnone q hC1 (by rw [hC3, pfx_take _ _ _ _ (by omega)]))]
    · rw [if_neg hC] at hchq
      have hnotP : ¬(q = pfx t.depth c nd ∧ lo = get_octree_idx c (t.depth - nd)) := by
        rintro ⟨h1, _⟩
        apply hC
        have hql : q.length = nd := by rw [h1, pfx_length]
        exact ⟨by omega, by omega, by rw [hql]; exact h1⟩
      rw [if_neg hnotP]
      cases hcase : offW t.data q 0 with
      | none =>
        rw [leafW_eq_none _ _ _ (hchq.trans hcase), leafW_eq_none _ _ _ hcase]
      | some off =>
        rw [leafW_eq_some _ _ _ _ (hchq.trans hcase), leafW_eq_some _ _ _ _ hcase]
        obtain ⟨h9o, hleno⟩ := wf.bounds q off hok hcase
        by_cases hop : off = ptr
        · rw [hop]
          rw [hGptr, gf_se _ _ _ hoct8]
          by_cases hlooct : lo = get_octree_idx c (t.depth - j)
          · rw [hlooct, ge_se_self, hfinj, hex]
            simp
          · rw [ge_se_ne _ _ _ hlooct,
              hcell (ptr + 1 + lo) (by omega) (by intro hcontra; apply hlooct; omega)
                (by omega)]
        · rw [hcell off hop (by omega) (by omega),
            hcell (off + 1 + lo) (by omega) (by intro hcontra; apply hop; omega) (by omega)]
  -- well-formedness of the new array
  have hWF : WF R.1 := by
    constructor
    · rw [Gl]
      exact ⟨m9 + (nd - j), by omega⟩
    · intro p off hokp hoffp
      rw [hchar p hokp] at hoffp
      rw [Gl]
      by_cases hC : j < p.length ∧ p.length ≤ nd ∧ p = pfx t.depth c p.length
      · rw [if_pos hC] at hoffp
        have hoo := Option.some.inj hoffp
        subst hoo
        obtain ⟨hC1, hC2, _⟩ := hC
        exact ⟨by omega, by omega⟩
      · rw [if_neg hC] at hoffp
        obtain ⟨hb1, hb2⟩ := wf.bounds p off hokp hoffp
        exact ⟨hb1, by omega⟩
    · intro p off hokp hoffp
      rw [hchar p hokp] at hoffp
      rw [Gd]
      by_cases hC : j < p.length ∧ p.length ≤ nd ∧ p = pfx t.depth c p.length
      · rw [if_pos hC] at hoffp
        omega
      · rw [if_neg hC] at hoffp
        exact wf.depth_bound p off hokp hoffp
    · intro p q offp offq hokp hokq hoffp hoffq hne
      rw [hchar p hokp] at hoffp
      rw [hchar q hokq] at hoffq
      by_cases hCp : j < p.length ∧ p.length ≤ nd ∧ p = pfx t.depth c p.length
      · rw [if_pos hCp] at hoffp
        have hop := Option.some.inj hoffp
        subst hop
        by_cases hCq : j < q.length ∧ q.length ≤ nd ∧ q = pfx t.depth c q.length
        · rw [if_pos hCq] at hoffq
          have hoq := Option.some.inj hoffq
          subst hoq
          have hlq : p.length ≠ q.length := by
            intro he
            apply hne
            rw [hCp.2.2, hCq.2.2, he]
          have hjp := hCp.1
          have hjq := hCq.1
          omega
        · rw [if_neg hCq] at hoffq
          obtain ⟨_, hb2⟩ := wf.bounds q offq hokq hoffq
          omega
      · rw [if_neg hCp] at hoffp
        by_cases hCq : j < q.length ∧ q.length ≤ nd ∧ q = pfx t.depth c q.length
        · rw [if_pos hCq] at hoffq
          have hoq := Option.some.inj hoffq
          subst hoq
          obtain ⟨_, hb2⟩ := wf.bounds p offp hokp hoffp
          omega
        · rw [if_neg hCq] at hoffq
          exact wf.inj p q offp offq hokp hokq hoffp hoffq hne
    · intro p off hokp hoffp o ho hgf
      rw [hchar p hokp] at hoffp
      by_cases hC : j < p.length ∧ p.length ≤ nd ∧ p = pfx t.depth c p.length
      · rw [if_pos hC] at hoffp
        have hoo := Option.some.inj hoffp
        subst hoo
        have hhd := hhdr p.length hC.1 hC.2.1
        by_cases hqn : p.length = nd
        · rw [if_pos hqn] at hhd
          rw [hhd, gf_last_hdr _ _ ho (get_octree_idx_lt_eight c _)] at hgf
          rw [hhd, ge_last_hdr _ _ ho]
          exact hgf
        · rw [if_neg hqn] at hhd
          rw [hhd, gf_tag_se _ _ ho (get_octree_idx_lt_eight c _)] at hgf
          exact absurd hgf (by simp)
      · rw [if_neg hC] at hoffp
        by_cases hop : off = ptr
        · rw [hop] at hgf hoffp ⊢
          rw [hGptr, gf_se _ _ _ hoct8] at hgf
          rw [hGptr]
          by_cases hoo : o = get_octree_idx c (t.depth - j)
          · rw [hoo, ge_se_self]
          · rw [ge_se_ne _ _ _ hoo]
            exact wf.fin_sub p ptr hokp hoffp o ho hgf
        · obtain ⟨h9o, hleno⟩ := wf.bounds p off hokp hoffp
          rw [hcell off hop (by omega) (by omega)] at hgf
          rw [hcell off hop (by omega) (by omega)]
          exact wf.fin_sub p off hokp hoffp o ho hgf
  refine ⟨Gs, hWF, Gd, ?_, hUPD⟩
  exact leafW_eq_none _ _ _
    (hLnone _ (by rw [pfx_length]; omega) (pfx_take _ _ _ _ (by omega)))

/-- Frame rule for walks at the level of the followed condition: the walk is
unchanged when every visited read agrees on the combined EXISTS-and-not-FINAL
test and, whenever that test passes, on the followed child slot. -/
theorem offW_frame3 (L Lp : List Nat) :
    ∀ q off,
      (∀ r offr, r < q.length → offW L (q.take r) off = some offr →
        ((get_exists (dget Lp offr) (q.getD r 0) &&
            !get_final (dget Lp offr) (q.getD r 0)) =
          (get_exists (dget L offr) (q.getD r 0) &&
            !get_final (dget L offr) (q.getD r 0))) ∧
        ((get_exists (dget L offr) (q.getD r 0) &&
            !get_final (dget L offr) (q.getD r 0)) = true →
          dget Lp (offr + 1 + q.getD r 0) = dget L (offr + 1 + q.getD r 0))) →
      offW Lp q off = offW L q off := by
  intro q
  induction q with
  | nil => intro off _; rfl
  | cons o p ih =>
    intro off hag
    obtain ⟨hc0, hs0⟩ := hag 0 off (by simp) rfl
    simp only [List.getD_cons_zero] at hc0 hs0
    rw [offW_cons, offW_cons, hc0]
    by_cases hc : (get_exists (dget L off) o && !get_final (dget L off) o) = true
    · rw [if_pos hc, if_pos hc, hs0 hc]
      apply ih
      intro r offr hr hoffr
      have := hag (r + 1) offr (by simpa using hr) ?_
      · simpa using this
      · rw [List.take_succ_cons, offW_cons, if_pos hc]
        exact hoffr
    · rw [if_neg hc, if_neg hc]

theorem insert_scenario_A (t : Octree) (wf : WF t) (c : IVec3) (val : Rgba)
    (nd ptr : Nat) (hnd : nd ≤ t.depth)
    (hoff : offW t.data (pfx t.depth c nd) 0 = some ptr)
    (hex : get_exists (dget t.data ptr) (get_octree_idx c (t.depth - nd)) = false) :
    (Octree.insert_go c val 0 t nd ptr (get_octree_idx c (t.depth - nd))
        (ptr + 1 + get_octree_idx c (t.depth - nd)) true).2.isSome = true ∧
    InsertAdds t
      (Octree.insert_go c val 0 t nd ptr (get_octree_idx c (t.depth - nd))
        (ptr + 1 + get_octree_idx c (t.depth - nd)) true).1
      (pfx t.depth c nd) (get_octree_idx c (t.depth - nd)) (from_color val) := by
  have hoct8 : get_octree_idx c (t.depth - nd) < 8 := get_octree_idx_lt_eight c _
  obtain ⟨hptr9, hptrlen⟩ := wf.bounds _ _ (PathOk_pfx _ _ _) hoff
  obtain ⟨m9, hm9⟩ := wf.len9
  obtain ⟨Gd, Gl, Gs, G⟩ := insert_go_alloc c val 0 t nd ptr
    (get_octree_idx c (t.depth - nd)) true rfl hoct8 hptrlen (Or.inr hex)
  set R := Octree.insert_go c val 0 t nd ptr (get_octree_idx c (t.depth - nd))
    (ptr + 1 + get_octree_idx c (t.depth - nd)) true with hR
  have hGptr : dget R.1.data ptr =
      set_final (set_exists (dget t.data ptr) (get_octree_idx c (t.depth - nd)))
        (get_octree_idx c (t.depth - nd)) := by
    rw [G, if_pos rfl, if_pos rfl]
  have hGslot : dget R.1.data (ptr + 1 + get_octree_idx c (t.depth - nd)) =
      from_color val := by
    rw [G, if_neg (show ¬(ptr + 1 + get_octree_idx c (t.depth - nd) = ptr) by omega),
      if_pos rfl, if_pos rfl]
  have hcell : ∀ i, i ≠ ptr → i ≠ ptr + 1 + get_octree_idx c (t.depth - nd) →
      dget R.1.data i = dget t.data i := by
    intro i h1 h2
    by_cases h3 : i < t.data.length
    · rw [G, if_neg h1, if_neg h2, if_pos h3]
    · rw [G, if_neg h1, if_neg h2, if_neg h3, if_neg (by omega),
        dget_ge_length t.data i (by omega)]
  -- every interior walk is unchanged
  have hsame : ∀ q, PathOk q → offW R.1.data q 0 = offW t.data q 0 := by
    intro q hok
    apply offW_frame3
    intro r offr hr hoffr
    have hokr : PathOk (q.take r) := fun o ho => hok o (List.mem_of_mem_take ho)
    obtain ⟨h9, hlen⟩ := wf.bounds _ _ hokr hoffr
    have hqr : q.getD r 0 < 8 := by
      have hmem : q.getD r 0 ∈ q := by
        rw [List.getD_eq_getElem q 0 hr]
        exact List.getElem_mem hr
      exact hok _ hmem
    by_cases hop : offr = ptr
    · rw [hop, hGptr]
      by_cases hqb : q.getD r 0 = get_octree_idx c (t.depth - nd)
      · rw [hqb]
        refine ⟨?_, ?_⟩
        · rw [ge_sf _ _ _ hoct8, ge_se_self, gf_sf_self, hex]
          simp
        · intro hcombo
          rw [hex, Bool.false_and] at hcombo
          exact absurd hcombo (by simp)
      · refine ⟨?_, ?_⟩
        · rw [ge_sf _ _ _ hqr, ge_se_ne _ _ _ hqb, gf_sf_ne _ _ _ hqb, gf_se _ _ _ hoct8]
        · intro _
          exact hcell _ (by omega) (by intro hcontra; apply hqb; omega)
    · refine ⟨?_, ?_⟩
      · rw [hcell offr hop (by omega)]
      · intro _
        exact hcell _ (by omega) (by intro hcontra; apply hop; omega)
  have hlen' : R.1.data.length = t.data.length := by
    rw [Gl]
    omega
  have hUPD : ∀ q lo, PathOk q → lo < 8 →
      leafW R.1.data q lo =
        if q = pfx t.depth c nd ∧ lo = get_octree_idx c (t.depth - nd) then
          some (from_color val)
        else leafW t.data q lo := by
    intro q lo hok hlo
    cases hcase : offW t.data q 0 with
    | none =>
      rw [leafW_eq_none _ _ _ ((hsame q hok).trans hcase), leafW_eq_none _ _ _ hcase]
      rw [if_neg (fun hc => by rw [hc.1, hoff] at hcase; exact Option.noConfusion hcase)]
    | some off =>
      rw [leafW_eq_some _ _ _ _ ((hsame q hok).trans hcase), leafW_eq_some _ _ _ _ hcase]
      obtain ⟨h9o, hleno⟩ := wf.bounds q off hok hcase
      by_cases hop : off = ptr
      · have hq : q = pfx t.depth c nd := by
          by_contra hne
          exact (wf.inj _ _ _ _ hok (PathOk_pfx _ _ _) hcase hoff hne) hop
        rw [hop, hGptr]
        by_cases hlob : lo = get_octree_idx c (t.depth - nd)
        · rw [hlob, ge_sf _ _ _ hoct8, ge_se_self, gf_sf_self]
          rw [if_pos (show ((true && true : Bool) = true) from rfl)]
          rw [hGslot]
          rw [if_pos (show q = pfx t.depth c nd ∧
              get_octree_idx c (t.depth - nd) = get_octree_idx c (t.depth - nd)
            from ⟨hq, rfl⟩)]
        · rw [ge_sf _ _ _ hlo, ge_se_ne _ _ _ hlob, gf_sf_ne _ _ _ hlob,
            gf_se _ _ _ hoct8]
          rw [if_neg (show ¬(q = pfx t.depth c nd ∧ lo = get_octree_idx c (t.depth - nd))
            from fun hc => hlob hc.2)]
          rw [hcell (ptr + 1 + lo) (by omega) (by intro hcontra; apply hlob; omega)]
      · rw [if_neg (show ¬(q = pfx t.depth c nd ∧ lo = get_octree_idx c (t.depth - nd))
          from fun hc =>
            hop (by rw [hc.1, hoff] at hcase; exact (Option.some.inj hcase).symm))]
        rw [hcell off hop (by omega),
          hcell (off + 1 + lo) (by omega) (by intro hcontra; apply hop; omega)]
  have hWF : WF R.1 := by
    constructor
    · rw [hlen']
      exact wf.len9
    · intro p off hokp hoffp
      rw [hsame p hokp] at hoffp
      rw [hlen']
      exact wf.bounds p off hokp hoffp
    · intro p off hokp hoffp
      rw [hsame p hokp] at hoffp
      rw [Gd]
      exact wf.depth_bound p off hokp hoffp
    · intro p q offp offq hokp hokq hoffp hoffq hne
      rw [hsame p hokp] at hoffp
      rw [hsame q hokq] at hoffq
      exact wf.inj p q offp offq hokp hokq hoffp hoffq hne
    · intro p off hokp hoffp o ho hgf
      rw [hsame p hokp] at hoffp
      by_cases hop : off = ptr
      · rw [hop, hGptr] at hgf ⊢
        by_cases hob : o = get_octree_idx c (t.depth - nd)
        · rw [hob, ge_sf _ _ _ hoct8, ge_se_self]
        · rw [gf_sf_ne _ _ _ hob, gf_se _ _ _ hoct8] at hgf
          rw [ge_sf _ _ _ ho, ge_se_ne _ _ _ hob]
          rw [hop] at hoffp
          exact wf.fin_sub p ptr hokp hoffp o ho hgf
      · obtain ⟨h9o, hleno⟩ := wf.bounds p off hokp hoffp
        rw [hcell off hop (by omega)] at hgf ⊢
        exact wf.fin_sub p off hokp hoffp o ho hgf
  refine ⟨Gs, hWF, Gd, ?_, hUPD⟩
  rw [leafW_eq_some _ _ _ _ hoff, hex]
  simp

/-- The descent loop of `insert` on a well-formed tree, started at the chunk
reached by the first `j` octants with the `inserted` flag still true: on
success the leaf map gains exactly the addressed leaf, on failure the tree is
returned unchanged. -/
theorem insert_go_chase (c : IVec3) (val : Rgba) :
    ∀ k t j ptr, WF t → j + k ≤ t.depth →
      offW t.data (pfx t.depth c j) 0 = some ptr →
      ((Octree.insert_go c val k t j ptr (get_octree_idx c (t.depth - j))
          (ptr + 1 + get_octree_idx c (t.depth - j)) true).2.isSome = true →
        InsertAdds t
          (Octree.insert_go c val k t j ptr (get_octree_idx c (t.depth - j))
            (ptr + 1 + get_octree_idx c (t.depth - j)) true).1
          (pfx t.depth c (j + k)) (get_octree_idx c (t.depth - (j + k)))
          (from_color val)) ∧
      ((Octree.insert_go c val k t j ptr (get_octree_idx c (t.depth - j))
          (ptr + 1 + get_octree_idx c (t.depth - j)) true).2 = none →
        (Octree.insert_go c val k t j ptr (get_octree_idx c (t.depth - j))
          (ptr + 1 + get_octree_idx c (t.depth - j)) true).1 = t) := by
  intro k
  induction k with
  | zero =>
    intro t j ptr wf hjk hoff
    by_cases hex : get_exists (dget t.data ptr) (get_octree_idx c (t.depth - j)) = true
    · have hfail : Octree.insert_go c val 0 t j ptr (get_octree_idx c (t.depth - j))
          (ptr + 1 + get_octree_idx c (t.depth - j)) true = (t, none) := by
        simp only [Octree.insert_go, hex, Bool.and_true, if_true]
      rw [hfail]
      exact ⟨fun h => absurd h (by simp), fun _ => rfl⟩
    · have hex' : get_exists (dget t.data ptr) (get_octree_idx c (t.depth - j)) = false :=
        Bool.not_eq_true _ ▸ Bool.eq_false_iff.mpr hex
      obtain ⟨hs, hadds⟩ := insert_scenario_A t wf c val j ptr (by omega) hoff hex'
      refine ⟨fun _ => ?_, fun hnone => ?_⟩
      · have hj0 : j + 0 = j := rfl
        rw [hj0]
        exact hadds
      · rw [hnone] at hs
        exact absurd hs (by simp)
  | succ k ih =>
    intro t j ptr wf hjk hoff
    by_cases hex : get_exists (dget t.data ptr) (get_octree_idx c (t.depth - j)) = true
    · by_cases hfin : get_final (dget t.data ptr) (get_octree_idx c (t.depth - j)) = true
      · have hfail : Octree.insert_go c val (k + 1) t j ptr
            (get_octree_idx c (t.depth - j))
            (ptr + 1 + get_octree_idx c (t.depth - j)) true = (t, none) := by
          simp only [Octree.insert_go, hex, hfin, Bool.and_true, if_true]
        rw [hfail]
        exact ⟨fun h => absurd h (by simp), fun _ => rfl⟩
      · have hfin' : get_final (dget t.data ptr) (get_octree_idx c (t.depth - j)) = false :=
          Bool.not_eq_true _ ▸ Bool.eq_false_iff.mpr hfin
        have hstep : Octree.insert_go c val (k + 1) t j ptr
            (get_octree_idx c (t.depth - j))
            (ptr + 1 + get_octree_idx c (t.depth - j)) true =
            Octree.insert_go c val k t (j + 1)
              (dget t.data (ptr + 1 + get_octree_idx c (t.depth - j)))
              (get_octree_idx c (t.depth - (j + 1)))
              (dget t.data (ptr + 1 + get_octree_idx c (t.depth - j)) + 1 +
                get_octree_idx c (t.depth - (j + 1))) true := by
          simp only [Octree.insert_go, hex, hfin, Bool.and_true, if_true,
            Octree.get_oct_inverted, Bool.false_eq_true, if_false]
        have hoff1 : offW t.data (pfx t.depth c (j + 1)) 0 =
            some (dget t.data (ptr + 1 + get_octree_idx c (t.depth - j))) := by
          rw [pfx_succ, offW_append, hoff]
          show offW t.data [get_octree_idx c (t.depth - j)] ptr = _
          rw [offW_cons, hex, hfin']
          rw [if_pos (by simp)]
          exact offW_nil _ _
        have := ih t (j + 1) (dget t.data (ptr + 1 + get_octree_idx c (t.depth - j)))
          wf (by omega) hoff1
        rw [hstep]
        have hadd : j + 1 + k = j + (k + 1) := by omega
        rw [hadd] at this
        exact this
    · have hex' : get_exists (dget t.data ptr) (get_octree_idx c (t.depth - j)) = false :=
        Bool.not_eq_true _ ▸ Bool.eq_false_iff.mpr hex
      obtain ⟨hs, hadds⟩ := insert_scenario_B t wf c val (j + (k + 1)) j ptr (by omega)
        (by omega) hoff hex'
      have hK : j + (k + 1) - j = k + 1 := by omega
      rw [hK] at hs hadds
      refine ⟨fun _ => hadds, fun hnone => ?_⟩
      · rw [hnone] at hs
        exact absurd hs (by simp)

theorem offW_new (depth : Nat) :
    ∀ p off, PathOk p → offW (Octree.new depth).data p 0 = some off → p = [] ∧ off = 0 := by
  intro p off hok hoff
  cases p with
  | nil => exact ⟨rfl, (Option.some.inj hoff).symm⟩
  | cons o q =>
    exfalso
    have ho : o < 8 := hok o (List.mem_cons_self o q)
    rw [offW_cons] at hoff
    have hhd : dget (Octree.new depth).data 0 = set_header_tag 0 := rfl
    rw [hhd, ge_tag _ _ ho, ge_zero, Bool.false_and] at hoff
    simp at hoff

theorem WF_new (depth : Nat) : WF (Octree.new depth) := by
  constructor
  · exact ⟨1, rfl⟩
  · intro p off hok hoff
    obtain ⟨rfl, rfl⟩ := offW_new depth p off hok hoff
    exact ⟨rfl, by simp [Octree.new, Octree.create_new_oct]⟩
  · intro p off hok hoff
    obtain ⟨rfl, rfl⟩ := offW_new depth p off hok hoff
    simp
  · intro p q offp offq hokp hokq hoffp hoffq hne
    obtain ⟨rfl, rfl⟩ := offW_new depth p offp hokp hoffp
    obtain ⟨rfl, rfl⟩ := offW_new depth q offq hokq hoffq
    exact absurd rfl hne
  · intro p off hok hoff o ho hgf
    obtain ⟨rfl, rfl⟩ := offW_new depth p off hok hoff
    have hhd : dget (Octree.new depth).data 0 = set_header_tag 0 := rfl
    rw [hhd, gf_tag _ _ ho, gf_zero] at hgf
    exact absurd hgf (by simp)

theorem insert_spec (t : Octree) (wf : WF t) (n : OctreePos) (val : Rgba)
    (hnd : n.depth ≤ t.depth) :
    ((t.insert n val).2.isSome = true →
      InsertAdds t (t.insert n val).1 (node_path t.depth n) (leaf_oct t.depth n)
        (from_color val)) ∧
    ((t.insert n val).2 = none → (t.insert n val).1 = t) := by
  have hguard : ¬(n.depth > t.depth) := by omega
  have hins : t.insert n val =
      Octree.insert_go n.coords val n.depth t 0 0
        (get_octree_idx n.coords (t.depth - 0))
        (0 + 1 + get_octree_idx n.coords (t.depth - 0)) true := by
    simp only [Octree.insert, hguard, if_false, Octree.get_oct_inverted]
  have := insert_go_chase n.coords val n.depth t 0 0 wf (by omega) (offW_nil _ _)
  rw [← hins] at this
  have h0 : 0 + n.depth = n.depth := by omega
  rw [h0] at this
  exact this

/-- Component extensionality for `IVec3`. -/
theorem IVec3.zero_add (v : IVec3) : (⟨0, 0, 0⟩ : IVec3).add v = v := by
  cases v
  simp [IVec3.add]

theorem IVec3.add_zero (v : IVec3) : v.add ⟨0, 0, 0⟩ = v := by
  cases v
  simp [IVec3.add]

theorem IVec3.add_assoc (u v w : IVec3) : (u.add v).add w = u.add (v.add w) := by
  cases u; cases v; cases w
  simp [IVec3.add]
  refine ⟨?_, ?_, ?_⟩ <;> ring

theorem IVec3.ext3 (u v : IVec3) (hx : u.x = v.x) (hy : u.y = v.y) (hz : u.z = v.z) :
    u = v := by
  cases u
  cases v
  simp only [IVec3.mk.injEq]
  exact ⟨hx, hy, hz⟩

theorem PathOk_append (p q : List Nat) (hp : PathOk p) (hq : PathOk q) :
    PathOk (p ++ q) := by
  intro o ho
  rcases List.mem_append.mp ho with h | h
  · exact hp o h
  · exact hq o h

theorem coords_acc_append (td : Nat) :
    ∀ p q d0, coords_acc td (p ++ q) d0 =
      (coords_acc td p d0).add (coords_acc td q (d0 + p.length)) := by
  intro p
  induction p with
  | nil =>
    intro q d0
    simp only [List.nil_append, coords_acc, List.length_nil, Nat.add_zero]
    rw [IVec3.zero_add]
  | cons o p ih =>
    intro q d0
    simp only [List.cons_append, coords_acc, List.length_cons, List.append_eq]
    rw [ih, IVec3.add_assoc]
    have : d0 + 1 + p.length = d0 + (p.length + 1) := by omega
    rw [this]

theorem coords_acc_bound (td : Nat) :
    ∀ p d0, PathOk p → d0 + p.length ≤ td + 1 →
      (0 ≤ (coords_acc td p d0).x ∧ (coords_acc td p d0).x < (2 : Int) ^ (td + 1 - d0)) ∧
      (0 ≤ (coords_acc td p d0).y ∧ (coords_acc td p d0).y < (2 : Int) ^ (td + 1 - d0)) ∧
      (0 ≤ (coords_acc td p d0).z ∧ (coords_acc td p d0).z < (2 : Int) ^ (td + 1 - d0)) := by
  intro p
  induction p with
  | nil =>
    intro d0 _ _
    simp only [coords_acc]
    refine ⟨⟨le_refl 0, ?_⟩, ⟨le_refl 0, ?_⟩, ⟨le_refl 0, ?_⟩⟩ <;> positivity
  | cons o p ih =>
    intro d0 hok hlen
    have ho : o < 8 := hok o (List.mem_cons_self o p)
    have hd0 : d0 ≤ td := by
      simp only [List.length_cons] at hlen
      omega
    have htl := ih (d0 + 1) (fun x hx => hok x (List.mem_cons_of_mem _ hx)) (by
      simp only [List.length_cons] at hlen
      omega)
    have hE1 : td + 1 - (d0 + 1) = td - d0 := by omega
    have hE2 : td + 1 - d0 = (td - d0) + 1 := by omega
    rw [hE1] at htl
    rw [hE2]
    obtain ⟨⟨hx1, hx2⟩, ⟨hy1, hy2⟩, ⟨hz1, hz2⟩⟩ := htl
    have hpow : (0 : Int) < 2 ^ (td - d0) := by positivity
    have hps : (2 : Int) ^ (td - d0 + 1) = 2 ^ (td - d0) * 2 := pow_succ 2 (td - d0)
    simp only [coords_acc, IVec3.add, IVec3.smul, oct_perm, Int.ofNat_eq_natCast]
    refine ⟨⟨?_, ?_⟩, ⟨?_, ?_⟩, ⟨?_, ?_⟩⟩
    · exact add_nonneg (mul_nonneg (by positivity) (by positivity)) hx1
    · rcases Nat.mod_two_eq_zero_or_one o with h | h <;> rw [h] <;> push_cast <;> linarith
    · exact add_nonneg (mul_nonneg (by positivity) (by positivity)) hy1
    · rcases Nat.mod_two_eq_zero_or_one (o / 2) with h | h <;> rw [h] <;> push_cast <;>
        linarith
    · exact add_nonneg (mul_nonneg (by positivity) (by positivity)) hz1
    · rcases Nat.mod_two_eq_zero_or_one (o / 4) with h | h <;> rw [h] <;> push_cast <;>
        linarith

theorem head_digit (P x y : Int) (a b : Nat) (hP : 0 < P) (ha : a < 2) (hb : b < 2)
    (hx : 0 ≤ x) (hx2 : x < P) (hy : 0 ≤ y) (hy2 : y < P)
    (heq : (a : Int) * P + x = (b : Int) * P + y) : a = b ∧ x = y := by
  interval_cases a <;> interval_cases b <;>
    push_cast at heq <;> simp only [zero_mul, one_mul, zero_add] at heq <;>
    exact ⟨by omega, by omega⟩

theorem coords_acc_inj (td : Nat) :
    ∀ p q d0, PathOk p → PathOk q → p.length = q.length → d0 + p.length ≤ td + 1 →
      coords_acc td p d0 = coords_acc td q d0 → p = q := by
  intro p
  induction p with
  | nil =>
    intro q d0 _ _ hlen _ _
    cases q with
    | nil => rfl
    | cons o q => simp at hlen
  | cons o p ih =>
    intro q d0 hokp hokq hlen hbound heq
    cases q with
    | nil => simp at hlen
    | cons o' q =>
      have ho : o < 8 := hokp o (List.mem_cons_self o p)
      have ho' : o' < 8 := hokq o' (List.mem_cons_self o' q)
      have hokp' : PathOk p := fun x hx => hokp x (List.mem_cons_of_mem _ hx)
      have hokq' : PathOk q := fun x hx => hokq x (List.mem_cons_of_mem _ hx)
      have hlen' : p.length = q.length := by
        simp only [List.length_cons] at hlen
        omega
      have hbound' : (d0 + 1) + p.length ≤ td + 1 := by
        simp only [List.length_cons] at hbound
        omega
      obtain ⟨⟨hx1, hx2⟩, ⟨hy1, hy2⟩, ⟨hz1, hz2⟩⟩ :=
        coords_acc_bound td p (d0 + 1) hokp' (by omega)
      obtain ⟨⟨hx1', hx2'⟩, ⟨hy1', hy2'⟩, ⟨hz1', hz2'⟩⟩ :=
        coords_acc_bound td q (d0 + 1) hokq' (by
          rw [← hlen']
          omega)
      have hE1 : td + 1 - (d0 + 1) = td - d0 := by
        simp only [List.length_cons] at hbound
        omega
      rw [hE1] at hx2 hy2 hz2 hx2' hy2' hz2'
      have hpow : (0 : Int) < 2 ^ (td - d0) := by positivity
      simp only [coords_acc, IVec3.add, IVec3.smul, oct_perm, Int.ofNat_eq_natCast,
        IVec3.mk.injEq] at heq
      obtain ⟨heqx, heqy, heqz⟩ := heq
      obtain ⟨hb0, htx⟩ := head_digit _ _ _ _ _ hpow (Nat.mod_lt o (by omega))
        (Nat.mod_lt o' (by omega)) hx1 hx2 hx1' hx2' heqx
      obtain ⟨hb1, hty⟩ := head_digit _ _ _ _ _ hpow (Nat.mod_lt _ (by omega))
        (Nat.mod_lt _ (by omega)) hy1 hy2 hy1' hy2' heqy
      obtain ⟨hb2, htz⟩ := head_digit _ _ _ _ _ hpow (Nat.mod_lt _ (by omega))
        (Nat.mod_lt _ (by omega)) hz1 hz2 hz1' hz2' heqz
      have hoo : o = o' := by omega
      have htail : coords_acc td p (d0 + 1) = coords_acc td q (d0 + 1) :=
        IVec3.ext3 _ _ htx hty htz
      rw [hoo, ih q (d0 + 1) hokp' hokq' hlen' hbound' htail]

theorem path_coords_inj (td : Nat) (P P' : List Nat) (lo lo' : Nat)
    (hokP : PathOk P) (hokP' : PathOk P') (hlo : lo < 8) (hlo' : lo' < 8)
    (hlen : P.length = P'.length) (hbound : P.length + 1 ≤ td + 1)
    (heq : path_coords td P lo = path_coords td P' lo') : P = P' ∧ lo = lo' := by
  have h := coords_acc_inj td (P ++ [lo]) (P' ++ [lo']) 0
    (PathOk_append _ _ hokP (by intro x hx; simp at hx; omega))
    (PathOk_append _ _ hokP' (by intro x hx; simp at hx; omega))
    (by simp [hlen])
    (by simp; omega)
    heq
  obtain ⟨h1, h2⟩ := List.append_inj h hlen
  exact ⟨h1, by simpa using h2⟩

/-- Successful one-step walk decomposition. -/
theorem offW_cons_some (L : List Nat) (o : Nat) (p : List Nat) (off v : Nat)
    (h : offW L (o :: p) off = some v) :
    get_exists (dget L off) o = true ∧ get_final (dget L off) o = false ∧
      offW L p (dget L (off + 1 + o)) = some v := by
  rw [offW_cons] at h
  by_cases hc : (get_exists (dget L off) o && !get_final (dget L off) o) = true
  · rw [if_pos hc] at h
    rw [Bool.and_eq_true, Bool.not_eq_true'] at hc
    exact ⟨hc.1, hc.2, h⟩
  · rw [if_neg hc] at h
    exact absurd h (by simp)

theorem leafW_some_offW (L : List Nat) (q : List Nat) (lo w : Nat)
    (h : leafW L q lo = some w) : ∃ off, offW L q 0 = some off := by
  cases hc : offW L q 0 with
  | none => rw [leafW_eq_none _ _ _ hc] at h; exact absurd h (by simp)
  | some off => exact ⟨off, rfl⟩

theorem leafW_some_cond (L : List Nat) (q : List Nat) (lo off w : Nat)
    (hoff : offW L q 0 = some off) (h : leafW L q lo = some w) :
    get_exists (dget L off) lo = true ∧ get_final (dget L off) lo = true ∧
      w = dget L (off + 1 + lo) := by
  rw [leafW_eq_some _ _ _ _ hoff] at h
  by_cases hc : (get_exists (dget L off) lo && get_final (dget L off) lo) = true
  · rw [if_pos hc] at h
    rw [Bool.and_eq_true] at hc
    exact ⟨hc.1, hc.2, (Option.some.inj h).symm⟩
  · rw [if_neg hc] at h
    exact absurd h (by simp)

theorem coords_acc_snoc (td : Nat) (P : List Nat) (i : Nat) :
    coords_acc td (P ++ [i]) 0 =
      (coords_acc td P 0).add ((oct_perm i).smul ((2 : Int) ^ (td - P.length))) := by
  rw [coords_acc_append]
  refine congrArg _ ?_
  simp only [coords_acc, Nat.zero_add]
  rw [IVec3.add_zero]

theorem leafW_append_nil (L : List Nat) (q : List Nat) (lo : Nat) :
    leafW L (q ++ []) lo = leafW L q lo := by
  rw [List.append_nil]

theorem collect_go_char (t : Octree) (wf : WF t) :
    ∀ fuel P off, PathOk P → offW t.data P 0 = some off →
      fuel + P.length = t.depth + 1 →
      (∀ x, x ∈ Octree.collect_go t fuel off P.length (coords_acc t.depth P 0) ↔
        ∃ rest lo w, PathOk rest ∧ lo < 8 ∧
          leafW t.data (P ++ rest) lo = some w ∧
          x = (⟨path_coords t.depth (P ++ rest) lo, (P ++ rest).length⟩, w)) ∧
      (Octree.collect_go t fuel off P.length (coords_acc t.depth P 0)).Nodup := by
  intro fuel
  induction fuel with
  | zero =>
    intro P off hok hoff hfuel
    exfalso
    have := wf.depth_bound P off hok hoff
    omega
  | succ fuel ih =>
    intro P off hok hoff hfuel
    have hdep := wf.depth_bound P off hok hoff
    have hunfold : Octree.collect_go t (fuel + 1) off P.length (coords_acc t.depth P 0) =
        (List.range 8).flatMap (fun i =>
          if !get_exists (dget t.data off) i then []
          else if get_final (dget t.data off) i then
            [(⟨(coords_acc t.depth P 0).add ((oct_perm i).smul
                ((2 : Int) ^ (t.depth - P.length))), P.length⟩,
              dget t.data (off + 1 + i))]
          else Octree.collect_go t fuel (dget t.data (off + 1 + i)) (P.length + 1)
            ((coords_acc t.depth P 0).add ((oct_perm i).smul
              ((2 : Int) ^ (t.depth - P.length))))) := rfl
    have hrec : ∀ i, i < 8 → get_exists (dget t.data off) i = true →
        get_final (dget t.data off) i = false →
        (∀ x, x ∈ Octree.collect_go t fuel (dget t.data (off + 1 + i)) (P.length + 1)
            ((coords_acc t.depth P 0).add ((oct_perm i).smul
              ((2 : Int) ^ (t.depth - P.length)))) ↔
          ∃ rest lo w, PathOk rest ∧ lo < 8 ∧
            leafW t.data ((P ++ [i]) ++ rest) lo = some w ∧
            x = (⟨path_coords t.depth ((P ++ [i]) ++ rest) lo,
              ((P ++ [i]) ++ rest).length⟩, w)) ∧
        (Octree.collect_go t fuel (dget t.data (off + 1 + i)) (P.length + 1)
          ((coords_acc t.depth P 0).add ((oct_perm i).smul
            ((2 : Int) ^ (t.depth - P.length))))).Nodup := by
      intro i hi hge hgf
      have hok' : PathOk (P ++ [i]) := PathOk_append _ _ hok (by
        intro o ho
        simp at ho
        omega)
      have hoff' : offW t.data (P ++ [i]) 0 = some (dget t.data (off + 1 + i)) := by
        rw [offW_append, hoff]
        show offW t.data [i] off = _
        rw [offW_cons, hge, hgf]
        rw [if_pos (by simp)]
        exact offW_nil _ _
      have hfuel' : fuel + (P ++ [i]).length = t.depth + 1 := by
        simp only [List.length_append, List.length_cons, List.length_nil]
        omega
      have h := ih (P ++ [i]) (dget t.data (off + 1 + i)) hok' hoff' hfuel'
      rw [show (P ++ [i]).length = P.length + 1 from by simp, coords_acc_snoc] at h
      exact h
    -- one-directional membership characterizations of each branch
    have hmemb : ∀ i, i < 8 → ∀ x,
        x ∈ (if !get_exists (dget t.data off) i then ([] : List (OctreePos × Nat))
          else if get_final (dget t.data off) i then
            [(⟨(coords_acc t.depth P 0).add ((oct_perm i).smul
                ((2 : Int) ^ (t.depth - P.length))), P.length⟩,
              dget t.data (off + 1 + i))]
          else Octree.collect_go t fuel (dget t.data (off + 1 + i)) (P.length + 1)
            ((coords_acc t.depth P 0).add ((oct_perm i).smul
              ((2 : Int) ^ (t.depth - P.length))))) →
        ∃ rest lo w, PathOk rest ∧ lo < 8 ∧ rest.headD lo = i ∧
          leafW t.data (P ++ rest) lo = some w ∧
          x = (⟨path_coords t.depth (P ++ rest) lo, (P ++ rest).length⟩, w) := by
      intro i hi x hxbody
      by_cases hge : get_exists (dget t.data off) i = true
      · by_cases hgf : get_final (dget t.data off) i = true
        · rw [if_neg (by rw [hge]; simp), if_pos hgf] at hxbody
          have hx := List.mem_singleton.mp hxbody
          refine ⟨[], i, dget t.data (off + 1 + i), ?_, hi, rfl, ?_, ?_⟩
          · intro o ho
            exact absurd ho (List.not_mem_nil o)
          · rw [List.append_nil, leafW_eq_some _ _ _ _ hoff, hge, hgf]
            rw [if_pos (by simp)]
          · rw [hx, List.append_nil]
            simp only [path_coords]
            rw [coords_acc_snoc]
        · have hgf' : get_final (dget t.data off) i = false := Bool.eq_false_iff.mpr hgf
          rw [if_neg (by rw [hge]; simp), if_neg hgf] at hxbody
          obtain ⟨rest, lo, w, hokr, hlo, hleaf, hxeq⟩ :=
            ((hrec i hi hge hgf').1 x).mp hxbody
          refine ⟨i :: rest, lo, w, ?_, hlo, rfl, ?_, ?_⟩
          · intro o ho
            rcases List.mem_cons.mp ho with h | h
            · omega
            · exact hokr o h
          · rw [List.append_cons P i rest]
            exact hleaf
          · rw [List.append_cons P i rest]
            exact hxeq
      · have hge' : get_exists (dget t.data off) i = false := Bool.eq_false_iff.mpr hge
        rw [if_pos (by rw [hge']; rfl)] at hxbody
        exact absurd hxbody (List.not_mem_nil x)
    have hmemb2 : ∀ rest lo w, PathOk rest → lo < 8 →
        leafW t.data (P ++ rest) lo = some w →
        ((⟨path_coords t.depth (P ++ rest) lo, (P ++ rest).length⟩, w) : OctreePos × Nat) ∈
          (if !get_exists (dget t.data off) (rest.headD lo)
            then ([] : List (OctreePos × Nat))
          else if get_final (dget t.data off) (rest.headD lo) then
            [(⟨(coords_acc t.depth P 0).add ((oct_perm (rest.headD lo)).smul
                ((2 : Int) ^ (t.depth - P.length))), P.length⟩,
              dget t.data (off + 1 + rest.headD lo))]
          else Octree.collect_go t fuel (dget t.data (off + 1 + rest.headD lo))
            (P.length + 1)
            ((coords_acc t.depth P 0).add ((oct_perm (rest.headD lo)).smul
              ((2 : Int) ^ (t.depth - P.length))))) := by
      intro rest lo w hokr hlo hleaf
      cases rest with
      | nil =>
        rw [List.append_nil] at hleaf
        obtain ⟨hge, hgf, hw⟩ := leafW_some_cond _ _ _ _ _ hoff hleaf
        simp only [List.headD]
        rw [if_neg (by rw [hge]; simp), if_pos hgf]
        rw [List.mem_singleton, hw, List.append_nil]
        simp only [path_coords]
        rw [coords_acc_snoc]
      | cons o rest' =>
        have ho8 : o < 8 := hokr o (List.mem_cons_self o rest')
        obtain ⟨off2, hoff2⟩ := leafW_some_offW _ _ _ _ hleaf
        rw [offW_append, hoff] at hoff2
        have hcons : offW t.data (o :: rest') off = some off2 := hoff2
        obtain ⟨hge, hgf, _⟩ := offW_cons_some _ _ _ _ _ hcons
        simp only [List.headD]
        rw [if_neg (by rw [hge]; simp), if_neg (by rw [hgf]; simp)]
        apply ((hrec o ho8 hge hgf).1 _).mpr
        refine ⟨rest', lo, w, fun y hy => hokr y (List.mem_cons_of_mem _ hy), hlo, ?_, ?_⟩
        · rw [← List.append_cons P o rest']
          exact hleaf
        · rw [← List.append_cons P o rest']
    refine ⟨?_, ?_⟩
    · intro x
      rw [hunfold, List.mem_flatMap]
      constructor
      · rintro ⟨i, hirange, hxbody⟩
        have hi : i < 8 := List.mem_range.mp hirange
        obtain ⟨rest, lo, w, hokr, hlo, _, hleaf, hxeq⟩ := hmemb i hi x hxbody
        exact ⟨rest, lo, w, hokr, hlo, hleaf, hxeq⟩
      · rintro ⟨rest, lo, w, hokr, hlo, hleaf, hxeq⟩
        have hhd8 : rest.headD lo < 8 := by
          cases rest with
          | nil => exact hlo
          | cons o rest' => exact hokr o (List.mem_cons_self o rest')
        refine ⟨rest.headD lo, List.mem_range.mpr hhd8, ?_⟩
        rw [hxeq]
        exact hmemb2 rest lo w hokr hlo hleaf
    · rw [hunfold]
      apply List.nodup_flatMap.mpr
      refine ⟨?_, ?_⟩
      · intro i hirange
        have hi : i < 8 := List.mem_range.mp hirange
        by_cases hge : get_exists (dget t.data off) i = true
        · by_cases hgf : get_final (dget t.data off) i = true
          · rw [if_neg (by rw [hge]; simp), if_pos hgf]
            exact List.nodup_singleton _
          · have hgf' : get_final (dget t.data off) i = false :=
              Bool.eq_false_iff.mpr hgf
            rw [if_neg (by rw [hge]; simp), if_neg hgf]
            exact (hrec i hi hge hgf').2
        · have hge' : get_exists (dget t.data off) i = false := Bool.eq_false_iff.mpr hge
          rw [if_pos (by rw [hge']; rfl)]
          exact List.nodup_nil
      · rw [List.pairwise_iff_getElem]
        intro a b ha hb hab
        have ha8 : a < 8 := by simpa using ha
        have hb8 : b < 8 := by simpa using hb
        simp only [Function.onFun, List.getElem_range]
        intro x hxa hxb
        obtain ⟨ra, la, wa, hokra, hla, hha, hlfa, hxa'⟩ := hmemb a ha8 x hxa
        obtain ⟨rb, lb, wb, hokrb, hlb, hhb, hlfb, hxb'⟩ := hmemb b hb8 x hxb
        have hAB := hxa'.symm.trans hxb'
        rw [Prod.mk.injEq, OctreePos.mk.injEq] at hAB
        obtain ⟨⟨hcoords, hdepth⟩, _⟩ := hAB
        obtain ⟨offa, hoffa⟩ := leafW_some_offW _ _ _ _ hlfa
        have hba := wf.depth_bound _ _ (PathOk_append _ _ hok hokra) hoffa
        obtain ⟨hPP, hll⟩ := path_coords_inj t.depth (P ++ ra) (P ++ rb) la lb
          (PathOk_append _ _ hok hokra) (PathOk_append _ _ hok hokrb) hla hlb hdepth
          (by omega) hcoords
        have hrr : ra = rb := List.append_cancel_left hPP
        rw [hrr, hll] at hha
        rw [hha] at hhb
        omega

/-- A fresh tree has an empty leaf map. -/
theorem leafW_new_none (depth : Nat) (P : List Nat) (lo : Nat)
    (hok : PathOk P) (hlo : lo < 8) :
    leafW (Octree.new depth).data P lo = none := by
  cases hw : offW (Octree.new depth).data P 0 with
  | none => exact leafW_eq_none _ _ _ hw
  | some off =>
    obtain ⟨hP, hoff0⟩ := offW_new depth P off hok hw
    rw [leafW_eq_some _ _ _ _ hw, hoff0]
    have hhd : dget (Octree.new depth).data 0 = set_header_tag 0 := rfl
    rw [hhd, ge_tag _ _ hlo, ge_zero, Bool.false_and]
    rw [if_neg Bool.false_ne_true]

theorem ins_log_step (t : Octree) (log : List (OctreePos × Nat)) (n : OctreePos)
    (v : Rgba) (wf : WF t)
    (hmem : ∀ pos w, ((pos, w) ∈ log) ↔ ∃ P lo, PathOk P ∧ lo < 8 ∧
      leafW t.data P lo = some w ∧
      pos = (⟨path_coords t.depth P lo, P.length⟩ : OctreePos))
    (hnd : log.Nodup) :
    WF (t.insert n v).1 ∧ (t.insert n v).1.depth = t.depth ∧
    (∀ pos w, ((pos, w) ∈ (if (t.insert n v).2.isSome = true then
        log ++ [(canon t.depth n, from_color v)] else log)) ↔
      ∃ P lo, PathOk P ∧ lo < 8 ∧
        leafW (t.insert n v).1.data P lo = some w ∧
        pos = (⟨path_coords t.depth P lo, P.length⟩ : OctreePos)) ∧
    (if (t.insert n v).2.isSome = true then
      log ++ [(canon t.depth n, from_color v)] else log).Nodup := by
  by_cases hguard : n.depth > t.depth
  · have hins : t.insert n v = (t, none) := by
      simp only [Octree.insert, if_pos hguard]
    rw [hins]
    simp only [Option.isSome_none, Bool.false_eq_true, if_false]
    exact ⟨wf, trivial, hmem, hnd⟩
  · have hnd2 : n.depth ≤ t.depth := by omega
    obtain ⟨hsucc, hfail⟩ := insert_spec t wf n v hnd2
    cases hres : (t.insert n v).2 with
    | none =>
      have ht : (t.insert n v).1 = t := hfail hres
      rw [ht]
      simp only [Option.isSome_none, Bool.false_eq_true, if_false]
      exact ⟨wf, trivial, hmem, hnd⟩
    | some slot =>
      have hsome : (t.insert n v).2.isSome = true := by rw [hres]; rfl
      obtain ⟨hWF, hdep, hnone, hupd⟩ := hsucc hsome
      simp only [Option.isSome_some]
      rw [if_pos trivial]
      have hl : (node_path t.depth n).length = n.depth := by
        simp only [node_path, pfx_length]
      refine ⟨hWF, hdep, ?_, ?_⟩
      · intro pos w
        rw [List.mem_append, List.mem_singleton]
        constructor
        · rintro (hin | heq)
          · obtain ⟨P, lo, hokP, hlo, hlf, hpos⟩ := (hmem pos w).mp hin
            refine ⟨P, lo, hokP, hlo, ?_, hpos⟩
            rw [hupd P lo hokP hlo]
            rw [if_neg ?_]
            · exact hlf
            · rintro ⟨hP, hloeq⟩
              rw [hP, hloeq, hnone] at hlf
              exact Option.noConfusion hlf
          · rw [Prod.mk.injEq] at heq
            obtain ⟨hpos, hw⟩ := heq
            refine ⟨node_path t.depth n, leaf_oct t.depth n, PathOk_pfx _ _ _,
              get_octree_idx_lt_eight _ _, ?_, ?_⟩
            · rw [hupd (node_path t.depth n) (leaf_oct t.depth n) (PathOk_pfx _ _ _)
                (get_octree_idx_lt_eight _ _)]
              rw [if_pos ⟨rfl, rfl⟩, hw]
            · rw [hpos, hl]
              rfl
        · rintro ⟨P, lo, hokP, hlo, hlf, hpos⟩
          rw [hupd P lo hokP hlo] at hlf
          by_cases hPb : P = node_path t.depth n ∧ lo = leaf_oct t.depth n
          · rw [if_pos hPb] at hlf
            right
            have hw := Option.some.inj hlf
            rw [Prod.mk.injEq]
            refine ⟨?_, hw.symm⟩
            rw [hpos, hPb.1, hPb.2, hl]
            rfl
          · rw [if_neg hPb] at hlf
            left
            exact (hmem pos w).mpr ⟨P, lo, hokP, hlo, hlf, hpos⟩
      · rw [List.nodup_append]
        refine ⟨hnd, List.nodup_singleton _, ?_⟩
        intro e he hesing
        rw [List.mem_singleton] at hesing
        rw [hesing] at he
        obtain ⟨P, lo, hokP, hlo, hlf, hpos⟩ := (hmem _ _).mp he
        have hpc : path_coords t.depth (node_path t.depth n) (leaf_oct t.depth n) =
            path_coords t.depth P lo ∧ n.depth = P.length := by
          have h2 := hpos
          rw [show canon t.depth n = (⟨path_coords t.depth (node_path t.depth n)
            (leaf_oct t.depth n), n.depth⟩ : OctreePos) from rfl,
            OctreePos.mk.injEq] at h2
          exact h2
        obtain ⟨hpc1, hpc2⟩ := hpc
        obtain ⟨offP, hoffP⟩ := leafW_some_offW _ _ _ _ hlf
        have hPbound := wf.depth_bound _ _ hokP hoffP
        have hlenP : (node_path t.depth n).length = P.length := by
          rw [hl]
          exact hpc2
        obtain ⟨hPP, hll⟩ := path_coords_inj t.depth (node_path t.depth n) P
          (leaf_oct t.depth n) lo (PathOk_pfx _ _ _) hokP
          (get_octree_idx_lt_eight _ _) hlo hlenP (by omega) hpc1
        rw [← hPP, ← hll, hnone] at hlf
        exact Option.noConfusion hlf

theorem apply_op_inv (t : Octree) (log : List (OctreePos × Nat)) (op : Op)
    (wf : WF t)
    (hmem : ∀ pos w, ((pos, w) ∈ log) ↔ ∃ P lo, PathOk P ∧ lo < 8 ∧
      leafW t.data P lo = some w ∧
      pos = (⟨path_coords t.depth P lo, P.length⟩ : OctreePos))
    (hnd : log.Nodup) :
    WF (apply_op (t, log) op).1 ∧ (apply_op (t, log) op).1.depth = t.depth ∧
    (∀ pos w, ((pos, w) ∈ (apply_op (t, log) op).2) ↔
      ∃ P lo, PathOk P ∧ lo < 8 ∧
        leafW (apply_op (t, log) op).1.data P lo = some w ∧
        pos = (⟨path_coords t.depth P lo, P.length⟩ : OctreePos)) ∧
    (apply_op (t, log) op).2.Nodup := by
  cases op with
  | ins n v => exact ins_log_step t log n v wf hmem hnd
  | sto p v =>
    by_cases hg : p.min_element < 1 ∨ (2 : Int) ^ (t.depth + 1) - 1 ≤ p.max_element
    · have ha : apply_op (t, log) (Op.sto p v) = (t, log) := by
        simp only [apply_op, if_pos hg]
      rw [ha]
      exact ⟨wf, rfl, hmem, hnd⟩
    · have ha : apply_op (t, log) (Op.sto p v) =
          ((t.insert ⟨p, t.depth⟩ v).1,
            if (t.insert ⟨p, t.depth⟩ v).2.isSome = true then
              log ++ [(canon t.depth ⟨p, t.depth⟩, from_color v)] else log) := by
        simp only [apply_op, if_neg hg]
      rw [ha]
      exact ins_log_step t log ⟨p, t.depth⟩ v wf hmem hnd

theorem replay_inv (depth : Nat) :
    ∀ (ops : List Op) (t : Octree) (log : List (OctreePos × Nat)),
      WF t → t.depth = depth →
      (∀ pos w, ((pos, w) ∈ log) ↔ ∃ P lo, PathOk P ∧ lo < 8 ∧
        leafW t.data P lo = some w ∧
        pos = (⟨path_coords depth P lo, P.length⟩ : OctreePos)) →
      log.Nodup →
      WF (ops.foldl apply_op (t, log)).1 ∧
      (ops.foldl apply_op (t, log)).1.depth = depth ∧
      (∀ pos w, ((pos, w) ∈ (ops.foldl apply_op (t, log)).2) ↔
        ∃ P lo, PathOk P ∧ lo < 8 ∧
          leafW (ops.foldl apply_op (t, log)).1.data P lo = some w ∧
          pos = (⟨path_coords depth P lo, P.length⟩ : OctreePos)) ∧
      (ops.foldl apply_op (t, log)).2.Nodup := by
  intro ops
  induction ops with
  | nil =>
    intro t log wf hd hmem hnd
    exact ⟨wf, hd, hmem, hnd⟩
  | cons op ops iho =>
    intro t log wf hd hmem hnd
    rw [List.foldl_cons]
    subst hd
    obtain ⟨w1, w2, w3, w4⟩ := apply_op_inv t log op wf hmem hnd
    have := iho (apply_op (t, log) op).1 (apply_op (t, log) op).2 w1 w2 (by
      intro pos w
      rw [w3 pos w]) w4
    exact this

/-- C1 (amended): after replaying any finite sequence of `insert`/`store`
calls from a fresh tree, `collect_nodes` returns a permutation of the success
log that records, for each insert that returned `Some`, the canonical
(range-reduced, low-bits-cleared) position derived from the consulted octants
together with the written color word; the collected list has no duplicates. -/
theorem C1_collect_is_canonical_success_log (depth : Nat) (ops : List Op) :
    List.Perm ((replay depth ops).1.collect_nodes) (replay depth ops).2 ∧
    ((replay depth ops).1.collect_nodes).Nodup := by
  show List.Perm ((List.foldl apply_op (Octree.new depth, []) ops).1.collect_nodes)
      (List.foldl apply_op (Octree.new depth, []) ops).2 ∧
    ((List.foldl apply_op (Octree.new depth, []) ops).1.collect_nodes).Nodup
  have hbase : ∀ (pos : OctreePos) (w : Nat),
      ((pos, w) ∈ ([] : List (OctreePos × Nat))) ↔ ∃ P lo, PathOk P ∧ lo < 8 ∧
        leafW (Octree.new depth).data P lo = some w ∧
        pos = (⟨path_coords depth P lo, P.length⟩ : OctreePos) := by
    intro pos w
    constructor
    · intro h
      exact absurd h (List.not_mem_nil _)
    · rintro ⟨P, lo, hokP, hlo, hlf, _⟩
      rw [leafW_new_none depth P lo hokP hlo] at hlf
      exact Option.noConfusion hlf
  obtain ⟨wf, hd, hmem, hnd⟩ := replay_inv depth ops (Octree.new depth) []
    (WF_new depth) rfl hbase List.nodup_nil
  have hchar := collect_go_char (List.foldl apply_op (Octree.new depth, []) ops).1 wf
    ((List.foldl apply_op (Octree.new depth, []) ops).1.depth + 1) [] 0
    (fun o ho => absurd ho (List.not_mem_nil o)) (offW_nil _ _)
    (by simp only [List.length_nil])
  obtain ⟨hcm, hcn⟩ := hchar
  have hcoll : (List.foldl apply_op (Octree.new depth, []) ops).1.collect_nodes =
      Octree.collect_go (List.foldl apply_op (Octree.new depth, []) ops).1
        ((List.foldl apply_op (Octree.new depth, []) ops).1.depth + 1) 0
        ([] : List Nat).length
        (coords_acc (List.foldl apply_op (Octree.new depth, []) ops).1.depth [] 0) := rfl
  rw [hcoll]
  refine ⟨?_, hcn⟩
  apply (List.perm_ext_iff_of_nodup hcn hnd).mpr
  intro a
  obtain ⟨pos, w⟩ := a
  rw [hcm (pos, w), hmem pos w]
  constructor
  · rintro ⟨rest, lo, w', hokr, hlo, hlf, heq⟩
    rw [Prod.mk.injEq] at heq
    obtain ⟨h1, h2⟩ := heq
    rw [List.nil_append] at hlf h1
    refine ⟨rest, lo, hokr, hlo, ?_, ?_⟩
    · rw [h2]
      exact hlf
    · rw [h1, hd]
  · rintro ⟨P, lo, hokP, hlo, hlf, hpos⟩
    refine ⟨P, lo, w, hokP, hlo, ?_, ?_⟩
    · rw [List.nil_append]
      exact hlf
    · rw [List.nil_append, Prod.mk.injEq]
      refine ⟨?_, rfl⟩
      rw [hpos, hd]

/-- C1 (counterexample to the original wording): inserting node
`((1,0,0), depth 0)` into a fresh depth-1 tree succeeds, yet `collect_nodes`
returns the node at position `(0,0,0)` (the canonical representative: the
descent only consults coordinate bit 1, which is 0), not at the position that
was passed to `insert`. -/
theorem C1_counterexample :
    ((Octree.new 1).insert ⟨⟨1, 0, 0⟩, 0⟩ ⟨1, 0, 0, 0⟩).2.isSome = true ∧
    ((Octree.new 1).insert ⟨⟨1, 0, 0⟩, 0⟩ ⟨1, 0, 0, 0⟩).1.collect_nodes =
      [(⟨⟨0, 0, 0⟩, 0⟩, from_color ⟨1, 0, 0, 0⟩)] ∧
    (⟨⟨0, 0, 0⟩, 0⟩ : OctreePos).coords ≠ (⟨⟨1, 0, 0⟩, 0⟩ : OctreePos).coords := by
  refine ⟨rfl, ?_, by simp⟩
  rfl

/-- C9: the claimed exterior/filled disjointness invariant fails.  Build a
filled depth-1 tree with two legal public inserts: a leaf at ((3,3,3), depth 1)
and a leaf at ((0,0,0), depth 0) whose color word is 9.  `fill_space`'s first
step, `insert_max_start` from `IVec3::ZERO`, descends through the FINAL leaf at
((0,0,0), 0) (its FINAL-ancestor check is commented out in the source), treats
the color word 9 as a child-chunk offset — aliasing the chunk allocated for
(3,3,3), where octant 0 is not EXISTS — and therefore marks ((0,0,0), depth 1)
EXISTS+FINAL in the empty tree E.  Both trees then contain that voxel:
`contains_point((0,0,0),1)` is true in the filled tree and in E. -/
theorem C9_exterior_not_disjoint :
    (((Octree.new 1).insert ⟨⟨3, 3, 3⟩, 1⟩ ⟨5, 0, 0, 0⟩).1.insert
        ⟨⟨0, 0, 0⟩, 0⟩ ⟨9, 0, 0, 0⟩).2.isSome = true ∧
    (Octree.insert_max_start
        (((Octree.new 1).insert ⟨⟨3, 3, 3⟩, 1⟩ ⟨5, 0, 0, 0⟩).1.insert
          ⟨⟨0, 0, 0⟩, 0⟩ ⟨9, 0, 0, 0⟩).1
        (Octree.new 1) ⟨0, 0, 0⟩).2 = some 1 ∧
    ((((Octree.new 1).insert ⟨⟨3, 3, 3⟩, 1⟩ ⟨5, 0, 0, 0⟩).1.insert
        ⟨⟨0, 0, 0⟩, 0⟩ ⟨9, 0, 0, 0⟩).1.contains_point ⟨⟨0, 0, 0⟩, 1⟩) = true ∧
    ((Octree.insert_max_start
        (((Octree.new 1).insert ⟨⟨3, 3, 3⟩, 1⟩ ⟨5, 0, 0, 0⟩).1.insert
          ⟨⟨0, 0, 0⟩, 0⟩ ⟨9, 0, 0, 0⟩).1
        (Octree.new 1) ⟨0, 0, 0⟩).1.contains_point ⟨⟨0, 0, 0⟩, 1⟩) = true := by
  refine ⟨rfl, by decide, by decide, by decide⟩

end MeshToVox
